import Mathlib

/-!
Verification development for the ProfAI real-time audio streaming server.

The definitions below are a shallow embedding of the Python sources:
`services/sarvam_service.py` (text normalization, segment splitting and the
streaming audio pipeline) and `websocket_server.py` (session wrapper,
request metrics and the start-class handler).  Texts are `List Char`
(ASCII model of Python's `str`; Python's `\w` is modelled as ASCII
alphanumerics plus underscore).  Audio byte chunks are `List Nat`.

The asynchronous streaming pipeline is embedded as a deterministic
event-trace semantics: a run is parameterized by
  - `live : Nat -> Bool`, the liveness-check schedule (the value the k-th
    call to the connection monitor returns, in program order),
  - `oracle : Nat -> List (List Nat)`, the provider oracle giving the
    sequence of audio chunks the synthesis provider emits for the segment
    at each position (providers are modelled error-free; the
    provider-failure fallback branches of the source are not exercised by
    the claims settled here),
  - `order : List Nat`, the completion order of the fan-out tasks in the
    `asyncio.as_completed` loop.
The run produces a list of events: liveness checks, provider-call starts,
provider-call completions, forwarded chunks, and task cancellations.
-/

/-- Python `str.isspace`-style whitespace, restricted to the ASCII escapes
`re` treats as `\s`. -/
def pyWS (c : Char) : Bool :=
  c == ' ' || c == '\t' || c == '\n' || c == '\r' || c == '\x0b' || c == '\x0c'

/-- ASCII model of the regex class `\w`: alphanumerics and underscore. -/
def wordChar (c : Char) : Bool :=
  c.isAlphanum || c == '_'

/-- Characters removed by the first substitution in
`_clean_text_for_ultra_fast_streaming` / `_clean_text_for_tts_fast`:
the regex class with asterisk, hash, underscore, backtick, brackets,
braces and backslash. -/
def mdChar (c : Char) : Bool :=
  c == '*' || c == '#' || c == '_' || c == Char.ofNat 96 ||
  c == '[' || c == ']' || c == Char.ofNat 123 || c == Char.ofNat 125 || c == '\\'

/-- Model of `re.sub` of the markdown character class with a space. -/
def mdStrip (l : List Char) : List Char :=
  l.map (fun c => if mdChar c then ' ' else c)

/-- Characters kept by the `keep essentials only` substitution:
word characters, whitespace and the listed punctuation; everything else
becomes a space. -/
def keepChar (c : Char) : Bool :=
  wordChar c || pyWS c || c == '.' || c == ',' || c == '!' || c == '?' ||
  c == ';' || c == ':' || c == Char.ofNat 39 || c == '-'

/-- Model of `re.sub(r'[^\w\s.,!?;:\x27-]', ' ', text)`. -/
def keepEssential (l : List Char) : List Char :=
  l.map (fun c => if keepChar c then c else ' ')

/-- A pending run of `n` dots, emitted when the run ends: runs of three
or more collapse to a single dot, shorter runs pass through. -/
def emitDots (n : Nat) : List Char :=
  if 3 ≤ n then ['.'] else List.replicate n '.'

/-- Scanner for `re.sub(r'\.{3,}', '.', text)`, carrying the length of
the current dot run. -/
def fixEllipsisAux (run : Nat) : List Char → List Char
  | [] => emitDots run
  | c :: rest =>
    if c == '.' then fixEllipsisAux (run + 1) rest
    else emitDots run ++ c :: fixEllipsisAux 0 rest

/-- Model of `re.sub(r'\.{3,}', '.', text)`: every maximal run of three or more
dots collapses to a single dot; runs of one or two dots are unchanged. -/
def fixEllipsis (l : List Char) : List Char :=
  fixEllipsisAux 0 l

/-- Scanner for `re.sub(r'\s+', ' ', text)`, carrying whether the
previous character was whitespace (in which case further whitespace is
absorbed into the already-emitted single space). -/
def collapseWSAux (prevWS : Bool) : List Char → List Char
  | [] => []
  | c :: rest =>
    if pyWS c then
      if prevWS then collapseWSAux true rest
      else ' ' :: collapseWSAux true rest
    else c :: collapseWSAux false rest

/-- Model of `re.sub(r'\s+', ' ', text)`: collapse each whitespace run to one space. -/
def collapseWS (l : List Char) : List Char :=
  collapseWSAux false l

/-- Python `str.strip()`: drop whitespace from both ends. -/
def pyStrip (l : List Char) : List Char :=
  ((l.dropWhile pyWS).reverse.dropWhile pyWS).reverse

/-- The four regex passes of `_clean_text_for_ultra_fast_streaming`,
before the length cap and final strip. -/
def cleanPasses (l : List Char) : List Char :=
  collapseWS (keepEssential (fixEllipsis (mdStrip l)))

/-- Model of `_clean_text_for_ultra_fast_streaming`: regex passes, then the hard
streaming cap (inputs over 5000 characters become their first 4800
characters plus a period), then `strip()`. -/
def clean_text_for_ultra_fast_streaming (l : List Char) : List Char :=
  let x := cleanPasses l
  pyStrip (if 5000 < x.length then x.take 4800 ++ ['.'] else x)

/-- Scanner for Python `str.split()`, accumulating the current word in
reverse. -/
def pySplitAux (cur : List Char) : List Char → List (List Char)
  | [] => if cur = [] then [] else [cur.reverse]
  | c :: rest =>
    if pyWS c then
      if cur = [] then pySplitAux [] rest
      else cur.reverse :: pySplitAux [] rest
    else pySplitAux (c :: cur) rest

/-- Python `str.split()`: split on whitespace runs, dropping empties. -/
def pySplit (l : List Char) : List (List Char) :=
  pySplitAux [] l

/-- One step of `_split_text_fast`: fold a word into the running chunk
list, starting a new chunk when the current one would overflow. -/
def splitFastStep (maxChunk : Nat) (acc : List (List Char) × List Char)
    (w : List Char) : List (List Char) × List Char :=
  if acc.2.length + w.length + 1 ≤ maxChunk then
    (acc.1, if acc.2 = [] then w else acc.2 ++ ' ' :: w)
  else
    (if acc.2 = [] then acc.1 else acc.1 ++ [pyStrip acc.2], w)

/-- Model of `_split_text_fast`: word-greedy splitting with no attention to
sentence boundaries. -/
def split_text_fast (text : List Char) (maxChunk : Nat) : List (List Char) :=
  let r := (pySplit text).foldl (splitFastStep maxChunk) ([], [])
  if r.2 = [] then r.1 else r.1 ++ [pyStrip r.2]

/-- The first-chunk builder loop of `_split_text_for_immediate_streaming`:
take words while the chunk (with a joining space) stays within the budget
and fewer than 100 words have been taken; stop at the first word that
does not fit. -/
def firstChunkLoop (maxChunk : Nat) : List (List Char) → List Char → Nat → List Char
  | [], first, _ => first
  | w :: rest, first, count =>
    if first.length + 1 + w.length ≤ maxChunk ∧ count < 100 then
      firstChunkLoop maxChunk rest (if first = [] then w else first ++ ' ' :: w) (count + 1)
    else first

/-- Model of `_split_text_for_immediate_streaming`: build a first chunk fast, then
split the remaining text (the original text after the first chunk's
character count, stripped) with `_split_text_fast`; fall back to
`_split_text_fast` on the whole text when no first chunk was built. -/
def split_text_for_immediate_streaming (text : List Char) (maxChunk : Nat) :
    List (List Char) :=
  let words := pySplit text
  if words = [] then []
  else
    let first := firstChunkLoop maxChunk words [] 0
    if first = [] then split_text_fast text maxChunk
    else
      let remaining := pyStrip (text.drop first.length)
      if remaining = [] then [pyStrip first]
      else pyStrip first :: split_text_fast remaining maxChunk

/-! ## Disconnection classification (`_is_normal_disconnection`) -/

/-- Predicate: `pat` matches at the head of `text`. -/
def leadMatch : List Char → List Char → Bool
  | [], _ => true
  | _ :: _, [] => false
  | p :: ps, t :: ts => p == t && leadMatch ps ts

/-- Python `pat in text`: substring containment. -/
def containsSub (text pat : List Char) : Bool :=
  match text with
  | [] => leadMatch pat []
  | _ :: rest => leadMatch pat text || containsSub rest pat

/-- ASCII model of Python `str.lower()`. -/
def asciiLower (c : Char) : Char :=
  if 'A' ≤ c ∧ c ≤ 'Z' then Char.ofNat (c.toNat + 32) else c

/-- Model of `str.lower()` over the whole message. -/
def lowerStr (l : List Char) : List Char :=
  l.map asciiLower

/-- The disconnection phrases checked by `_is_normal_disconnection`. -/
def disconnectionPhrases : List (List Char) :=
  ["connection closed".toList, "client disconnected".toList,
   "going away".toList, "connection lost".toList]

/-- Model of `SarvamService._is_normal_disconnection`: the error message is
classified as a normal disconnection when it contains the digit string
1000 or 1001, or (after lowercasing) one of four disconnection phrases.
The Python body is wrapped in a `try` whose `except` returns `False`;
the embedded computation is total, so no branch of it can raise. -/
def is_normal_disconnection (msg : List Char) : Bool :=
  if containsSub msg "1000".toList || containsSub msg "1001".toList then true
  else disconnectionPhrases.any (fun p => containsSub (lowerStr msg) p)

/-! ## Streaming pipeline event traces (`stream_audio_generation`,
`_stream_audio_direct`, `_stream_audio_immediate`) -/

/-- Observable events of a streaming run.
  - `chk ok`: a liveness check of the session returned `ok`;
  - `call seg`: a synthesis provider call for the segment at position
    `seg` was started (segment 0 is the directly streamed first segment,
    segments 1.. are the fan-out tasks created by `asyncio.create_task`);
  - `done seg`: the provider call for `seg` finished;
  - `yld seg chunk`: `chunk` was forwarded to the caller, originating
    from segment `seg`;
  - `cancel seg`: the outstanding task for `seg` was cancelled. -/
inductive Ev where
  | chk (ok : Bool)
  | call (seg : Nat)
  | done (seg : Nat)
  | yld (seg : Nat) (chunk : List Nat)
  | cancel (seg : Nat)
deriving DecidableEq, Repr

/-- Result of the provider-message loop of `_stream_audio_direct`:
emitted events, the next liveness-check index, and whether the loop ran
to completion (as opposed to returning early on a failed check). -/
structure LoopRes where
  evs : List Ev
  next : Nat
  completed : Bool

/-- The provider-message loop of `_stream_audio_direct` (lines 202-213):
before each provider message is forwarded the client connection is
checked; a failed check returns from the generator; empty chunks are not
forwarded. -/
def directLoop (live : Nat → Bool) (k : Nat) : List (List Nat) → LoopRes
  | [] => ⟨[], k, true⟩
  | c :: rest =>
    if live k then
      let r := directLoop live (k + 1) rest
      ⟨Ev.chk true :: (if c = [] then r.evs else Ev.yld 0 c :: r.evs), r.next, r.completed⟩
    else ⟨[Ev.chk false], k + 1, false⟩

/-- Model of `_stream_audio_direct` as called for a text at or below the direct
threshold: initial liveness check, one provider call, the message loop,
the pre-flush liveness check (only when the loop completed), and the
provider connection closing on exit of the `async with` block. -/
def streamDirect (live : Nat → Bool) (k : Nat) (prov : List (List Nat)) :
    List Ev × Nat :=
  if live k then
    let r := directLoop live (k + 1) prov
    if r.completed then
      (Ev.chk true :: Ev.call 0 :: r.evs ++ [Ev.chk (live r.next), Ev.done 0], r.next + 1)
    else
      (Ev.chk true :: Ev.call 0 :: r.evs ++ [Ev.done 0], r.next)
  else ([Ev.chk false], k + 1)

/-- How the fused first-segment loop of `_stream_audio_immediate` exited:
`finished` - the provider stream for the first segment was exhausted;
`providerStopped` - `_stream_audio_direct` returned early on its own
failed check (the outer generator continues after its `async for`);
`aborted` - the check before re-yielding inside `_stream_audio_immediate`
failed, returning from the whole generator. -/
inductive FirstExit where
  | finished
  | providerStopped
  | aborted
deriving DecidableEq, Repr

/-- Result of the fused first-segment loop. -/
structure FirstRes where
  evs : List Ev
  next : Nat
  exitKind : FirstExit

/-- The first-segment phase of `_stream_audio_immediate`: chunks stream
through `_stream_audio_direct` (one check per provider message) and are
re-checked once more in `_stream_audio_immediate` before being forwarded
(lines 261-270). -/
def firstLoop (live : Nat → Bool) (k : Nat) : List (List Nat) → FirstRes
  | [] => ⟨[], k, .finished⟩
  | c :: rest =>
    if live k then
      if c = [] then
        let r := firstLoop live (k + 1) rest
        ⟨Ev.chk true :: r.evs, r.next, r.exitKind⟩
      else if live (k + 1) then
        let r := firstLoop live (k + 2) rest
        ⟨Ev.chk true :: Ev.chk true :: Ev.yld 0 c :: r.evs, r.next, r.exitKind⟩
      else ⟨[Ev.chk true, Ev.chk false], k + 2, .aborted⟩
    else ⟨[Ev.chk false], k + 1, .providerStopped⟩

/-- Model of `_generate_audio_single` concatenates every provider chunk of a
segment into one byte buffer; `_generate_chunk_fast` returns it. -/
def joinChunks (prov : List (List Nat)) : List Nat :=
  prov.foldr (· ++ ·) []

/-- The `asyncio.as_completed` loop of `_stream_audio_immediate` (lines
288-304): tasks complete in the order given by `order`; before each
completed task is consumed the connection is checked, and on a failed
check every task that is not yet done is cancelled and the generator
returns; empty task results are not forwarded. -/
def parLoop (live : Nat → Bool) (oracle : Nat → List (List Nat)) (k : Nat) :
    List Nat → List Ev
  | [] => []
  | i :: rest =>
    if live k then
      let res := joinChunks (oracle i)
      Ev.done i :: Ev.chk true ::
        (if res = [] then parLoop live oracle (k + 1) rest
         else Ev.yld i res :: parLoop live oracle (k + 1) rest)
    else Ev.done i :: Ev.chk false :: rest.map Ev.cancel

/-- The fan-out phase of `_stream_audio_immediate` (lines 272-304): when
more than one segment exists and the connection is still live, one task
per remaining segment is created up front (all provider calls start
before any is awaited), then results are consumed in completion order. -/
def fanoutPhase (live : Nat → Bool) (oracle : Nat → List (List Nat))
    (k : Nat) (n : Nat) (order : List Nat) : List Ev :=
  if n ≤ 1 then []
  else if live k then
    Ev.chk true :: ((List.range' 1 (n - 1)).map Ev.call ++ parLoop live oracle (k + 1) order)
  else [Ev.chk false]

/-- Model of `_stream_audio_immediate`: initial check, segment split, the
first-segment phase streamed alone through `_stream_audio_direct`, then
the fan-out phase for the remaining segments. -/
def streamImmediate (live : Nat → Bool) (oracle : Nat → List (List Nat))
    (order : List Nat) (k : Nat) (text : List Char) : List Ev :=
  if live k then
    let chunks := split_text_for_immediate_streaming text 800
    if chunks = [] then [Ev.chk true]
    else
      if live (k + 1) then
        let r := firstLoop live (k + 2) (oracle 0)
        match r.exitKind with
        | .aborted =>
          Ev.chk true :: Ev.chk true :: Ev.call 0 :: r.evs ++ [Ev.done 0]
        | .providerStopped =>
          Ev.chk true :: Ev.chk true :: Ev.call 0 :: r.evs ++ [Ev.done 0] ++
            fanoutPhase live oracle r.next chunks.length order
        | .finished =>
          Ev.chk true :: Ev.chk true :: Ev.call 0 :: r.evs ++
            [Ev.chk (live r.next), Ev.done 0] ++
            fanoutPhase live oracle (r.next + 1) chunks.length order
      else
        Ev.chk true :: Ev.chk false ::
          fanoutPhase live oracle (k + 2) chunks.length order
  else [Ev.chk false]

/-- Model of `stream_audio_generation`: initial check, normalization, then the
direct single-call path for normalized text of at most 800 characters,
or the immediate multi-segment path above that. -/
def stream_audio_generation (live : Nat → Bool) (oracle : Nat → List (List Nat))
    (order : List Nat) (text : List Char) : List Ev :=
  if live 0 then
    let cleaned := clean_text_for_ultra_fast_streaming text
    if cleaned.length ≤ 800 then
      Ev.chk true :: (streamDirect live 1 (oracle 0)).1
    else Ev.chk true :: streamImmediate live oracle order 1 cleaned
  else [Ev.chk false]

/-! ## Trace observations -/

/-- Forwarded chunks, tagged with their originating segment. -/
def yieldsOf : List Ev → List (Nat × List Nat) :=
  List.filterMap fun e =>
    match e with
    | Ev.yld s c => some (s, c)
    | _ => none

/-- Segments whose provider call was started, in start order. -/
def callsOf : List Ev → List Nat :=
  List.filterMap fun e =>
    match e with
    | Ev.call s => some s
    | _ => none

/-- Is this event a forwarded chunk or a provider-call start?  These are
the events that must not occur after a failed liveness check. -/
def noisy : Ev → Bool
  | Ev.call _ => true
  | Ev.yld _ _ => true
  | _ => false

/-- Running count of in-flight provider calls: calls started minus calls
finished, tracked together with its running maximum. -/
def maxPendingAux : List Ev → Nat → Nat → Nat
  | [], _, mx => mx
  | Ev.call _ :: r, cur, mx => maxPendingAux r (cur + 1) (max mx (cur + 1))
  | Ev.done _ :: r, cur, mx => maxPendingAux r (cur - 1) mx
  | _ :: r, cur, mx => maxPendingAux r cur mx

/-- The maximum number of concurrently pending provider calls over a
trace. -/
def maxPending (l : List Ev) : Nat :=
  maxPendingAux l 0 0

/-- No noisy event (chunk forward or provider call) occurs in the trace. -/
def allQuiet (l : List Ev) : Prop :=
  ∀ e ∈ l, noisy e = false

/-- After every failed liveness check, the rest of the trace is quiet. -/
def quietAfter (l : List Ev) : Prop :=
  ∀ a b, l = a ++ Ev.chk false :: b → allQuiet b

/-- The liveness schedule is absorbing: once a check fails, every later
check fails (a closed session does not reopen). -/
def LiveMono (live : Nat → Bool) : Prop :=
  ∀ k, live (k + 1) = true → live k = true

/-! ## Session wrapper (`ProfAIWebSocketWrapper`) -/

/-- The wrapper state tracked by `ProfAIWebSocketWrapper`: message count
and last-activity time (times are abstract ticks). -/
structure WrapperState where
  message_count : Nat
  last_activity : Nat
deriving DecidableEq, Repr

/-- Model of `ProfAIWebSocketWrapper.send`: the outbound frame is enriched, the
message counter and activity time are updated, and only then is the
transport send attempted; `transportOk = false` models the transport
raising `ConnectionClosed`, which the method re-raises after logging.
The returned flag is `true` when the send succeeded. -/
def wrapperSend (st : WrapperState) (now : Nat) (transportOk : Bool) :
    WrapperState × Bool :=
  ({ message_count := st.message_count + 1, last_activity := now }, transportOk)

/-- Outcome of `ProfAIWebSocketWrapper.close`. -/
structure CloseOutcome where
  /-- how many final metrics frames were attempted -/
  metricsAttempts : Nat
  /-- whether `self.websocket.close()` was reached -/
  transportClosed : Bool
  /-- whether the call raised to the caller -/
  raised : Bool
deriving DecidableEq, Repr

/-- Model of `ProfAIWebSocketWrapper.close`: inside a single `try` it sends one
final metrics frame through `send` and then closes the transport; the
bare `except: pass` swallows any failure.  Because the transport close
sits in the same `try` after the metrics send, a failing send skips it. -/
def wrapperClose (st : WrapperState) (now : Nat) (sendOk : Bool) :
    WrapperState × CloseOutcome :=
  let r := wrapperSend st now sendOk
  if r.2 then (r.1, ⟨1, true, false⟩)
  else (r.1, ⟨1, false, false⟩)

/-! ## Conversation metrics (`ProfAIAgent.conversation_metrics`) -/

/-- The counters of `ProfAIAgent.conversation_metrics`.  Durations are
abstract ticks; the derived float `avg_response_time`
(`total_response_time / total_requests`) is not separately tracked. -/
structure Metrics where
  total_requests : Nat
  chat_requests : Nat
  audio_requests : Nat
  teaching_requests : Nat
  errors : Nat
  total_response_time : Nat
deriving DecidableEq, Repr

/-- Model of `ProfAIAgent.__init__`: all counters start at zero. -/
def initMetrics : Metrics :=
  ⟨0, 0, 0, 0, 0, 0⟩

/-- The metric-relevant outcome of processing one inbound frame, one
constructor per distinct terminal path of the handler code.
  - `chatCompleted`: `handle_chat_with_audio` reached its metrics update;
  - `chatAudioError`: the audio exception path (errors incremented, then
    the metrics update still runs);
  - `chatRejected`: any early `return` (missing field, unavailable
    service, text timeout or failure) before the metrics update;
  - `chatDisconnected`: `ConnectionClosed` during audio streaming; on an
    abnormal closure the inner and outer handlers each increment
    `errors`;
  - `chatFatal`: the outer generic exception handler;
  - `classCompleted` / `classRejected` / `classFatal` and
    `audioCompleted` / `audioRejected` / `audioFatal`: the corresponding
    paths of `handle_start_class` and `handle_audio_only` (their
    audio-failure branches fall through to the metrics update without
    touching `errors`);
  - `otherHandled`: `ping`, `set_language`, `get_metrics`,
    `transcribe_audio` and malformed frames, which never touch the
    counters;
  - `routerDisconnect`: `ConnectionClosed` caught by the router loop
    (counted as an error only when abnormal). -/
inductive ReqEvent where
  | chatCompleted (dur : Nat)
  | chatAudioError (dur : Nat)
  | chatRejected
  | chatDisconnected (abnormal : Bool)
  | chatFatal
  | classCompleted (dur : Nat)
  | classRejected
  | classFatal
  | audioCompleted (dur : Nat)
  | audioRejected
  | audioFatal
  | otherHandled
  | routerDisconnect (abnormal : Bool)
deriving DecidableEq, Repr

/-- Metric update performed by each outcome, following the increments in
`websocket_server.py`. -/
def applyEvent (m : Metrics) : ReqEvent → Metrics
  | .chatCompleted d =>
    { m with total_requests := m.total_requests + 1,
             chat_requests := m.chat_requests + 1,
             total_response_time := m.total_response_time + d }
  | .chatAudioError d =>
    { m with total_requests := m.total_requests + 1,
             chat_requests := m.chat_requests + 1,
             errors := m.errors + 1,
             total_response_time := m.total_response_time + d }
  | .chatRejected => m
  | .chatDisconnected true => { m with errors := m.errors + 2 }
  | .chatDisconnected false => m
  | .chatFatal => { m with errors := m.errors + 1 }
  | .classCompleted d =>
    { m with total_requests := m.total_requests + 1,
             teaching_requests := m.teaching_requests + 1,
             total_response_time := m.total_response_time + d }
  | .classRejected => m
  | .classFatal => { m with errors := m.errors + 1 }
  | .audioCompleted d =>
    { m with total_requests := m.total_requests + 1,
             audio_requests := m.audio_requests + 1,
             total_response_time := m.total_response_time + d }
  | .audioRejected => m
  | .audioFatal => { m with errors := m.errors + 1 }
  | .otherHandled => m
  | .routerDisconnect true => { m with errors := m.errors + 1 }
  | .routerDisconnect false => m

/-- The metrics after a session processed the given outcomes in order. -/
def runMetrics (evs : List ReqEvent) : Metrics :=
  evs.foldl applyEvent initMetrics

/-- Componentwise order on the request counters named by the claim. -/
def MetricsLE (m m' : Metrics) : Prop :=
  m.total_requests ≤ m'.total_requests ∧ m.chat_requests ≤ m'.chat_requests ∧
  m.audio_requests ≤ m'.audio_requests ∧ m.teaching_requests ≤ m'.teaching_requests

/-! ## `handle_start_class` index validation -/

/-- A sub-topic of a stored course module. -/
structure SubTopic where
  title : String
  content : String
deriving DecidableEq, Repr

/-- A stored course module. -/
structure CourseModule where
  title : String
  sub_topics : List SubTopic
deriving DecidableEq, Repr

/-- A stored course: the modules list of the course-content JSON. -/
structure Course where
  modules : List CourseModule
deriving DecidableEq, Repr

/-- Python list indexing semantics: non-negative indices from the front,
negative indices from the back, `none` for `IndexError`. -/
def pyGet {α : Type} (l : List α) (i : Int) : Option α :=
  if 0 ≤ i then l.get? i.toNat
  else if 0 ≤ (l.length : Int) + i then l.get? ((l.length : Int) + i).toNat
  else none

/-- Outbound frames sent by `handle_start_class` up to the start of audio
generation; teaching-content generation and audio streaming are
abstracted (`teach` stands for the generated teaching text), since the
indexing claims concern only the validation prefix. -/
inductive SFrame where
  | classStarting
  | errorCourseMissing
  | errorModuleRange (idx : Int) (maxAvail : Int)
  | errorSubTopicRange (idx : Int) (maxAvail : Int)
  | errorLoadFailed
  | courseInfo (moduleTitle subTopicTitle : String)
  | teachingContent (teach : String)
  | audioStarted
deriving DecidableEq, Repr

/-- Model of `ProfAIAgent.handle_start_class` (lines 466-620): acknowledgment,
course-store lookup, the two `>=`-only index checks with range-naming
error frames, Python list access (whose `IndexError` is caught by the
generic content-loading handler, producing a generic error frame), then
the course-info / teaching-content / audio frames. -/
def handle_start_class (store : Option Course) (moduleIndex subTopicIndex : Int)
    (teach : String) : List SFrame :=
  SFrame.classStarting ::
    match store with
    | none => [SFrame.errorCourseMissing]
    | some course =>
      if (course.modules.length : Int) ≤ moduleIndex then
        [SFrame.errorModuleRange moduleIndex ((course.modules.length : Int) - 1)]
      else
        match pyGet course.modules moduleIndex with
        | none => [SFrame.errorLoadFailed]
        | some m =>
          if (m.sub_topics.length : Int) ≤ subTopicIndex then
            [SFrame.errorSubTopicRange subTopicIndex ((m.sub_topics.length : Int) - 1)]
          else
            match pyGet m.sub_topics subTopicIndex with
            | none => [SFrame.errorLoadFailed]
            | some st =>
              [SFrame.courseInfo m.title st.title, SFrame.teachingContent teach,
               SFrame.audioStarted]

/-- The sum invariant of the claim. -/
def MetricsInv (m : Metrics) : Prop :=
  m.total_requests = m.chat_requests + m.audio_requests + m.teaching_requests

/-- Demonstration course with one module holding one sub-topic. -/
def demoCourse : Course :=
  ⟨[⟨"M0", [⟨"T0", "C0"⟩]⟩]⟩

/-- The concrete over-cap input: 5001 copies of the word character a. -/
def capInput : List Char := List.replicate 5001 'a'

/-- Words joined by single spaces (the shape of cleaned multi-word
text). -/
def spaceJoin : List (List Char) → List Char
  | [] => []
  | [w] => w
  | w :: ws => w ++ ' ' :: spaceJoin ws

/-- A word as produced by `str.split`: nonempty, no whitespace inside. -/
def NoWSWord (w : List Char) : Prop :=
  w ≠ [] ∧ ∀ c ∈ w, pyWS c = false

/-- One 400-character word. -/
def w400 : List Char := List.replicate 400 'a'

/-- Six 400-character words joined by single spaces: 2405 characters,
above the 800-character streaming split threshold and below the 5000
normalization cap; each adjacent pair of words overflows an 800-character
chunk, so the splitter produces six single-word segments. -/
def fanoutText : List Char := spaceJoin (List.replicate 6 w400)

/-- The always-live schedule: the client never disconnects. -/
def liveTrue : Nat → Bool := fun _ => true

/-- A provider oracle emitting one single-byte chunk per segment. -/
def capOracle : Nat → List (List Nat) := fun _ => [[1]]

/-- Batching of `range(0, len(chunks), step)` with fuel: each batch is the
next `step` chunks. -/
def groupsOfAux {α : Type} (step : Nat) : Nat → List α → List (List α)
  | 0, _ => []
  | _, [] => []
  | fuel + 1, l => l.take step :: groupsOfAux step fuel (l.drop step)

/-- The batches processed by `_generate_audio_parallel_chunks`:
`max_concurrent = min(4, len(chunks))` chunks per batch, batches
processed sequentially (`await asyncio.gather` per batch). -/
def parallelBatches {α : Type} (l : List α) : List (List α) :=
  if l.length = 0 then [] else groupsOfAux (min 4 l.length) l.length l

/-- The batching of `_generate_audio_parallel_chunks` applied to its
`_split_text_fast` segments. -/
def generate_audio_parallel_batches (text : List Char) (chunkSize : Nat) :
    List (List (List Char)) :=
  parallelBatches (split_text_fast text chunkSize)

/-! ## Generic helper lemmas -/

theorem allQuiet_nil : allQuiet [] := by
  intro e he
  cases he

theorem allQuiet_cons {e : Ev} {l : List Ev} (he : noisy e = false) (hl : allQuiet l) :
    allQuiet (e :: l) := by
  intro x hx
  rcases List.mem_cons.mp hx with h | h
  · exact h ▸ he
  · exact hl x h

theorem allQuiet_append {a b : List Ev} (ha : allQuiet a) (hb : allQuiet b) :
    allQuiet (a ++ b) := by
  intro x hx
  rcases List.mem_append.mp hx with h | h
  · exact ha x h
  · exact hb x h

theorem allQuiet_of_cons {e : Ev} {l : List Ev} (h : allQuiet (e :: l)) : allQuiet l :=
  fun x hx => h x (List.mem_cons_of_mem e hx)

theorem quietAfter_nil : quietAfter [] := by
  intro a b hab
  exact absurd hab.symm (List.append_ne_nil_of_right_ne_nil a (List.cons_ne_nil _ b))

theorem quietAfter_cons {e : Ev} {l : List Ev} (h1 : quietAfter l)
    (h2 : e = Ev.chk false → allQuiet l) : quietAfter (e :: l) := by
  intro a b hab
  cases a with
  | nil =>
    simp only [List.nil_append, List.cons.injEq] at hab
    exact hab.2 ▸ h2 hab.1
  | cons x a =>
    simp only [List.cons_append, List.cons.injEq] at hab
    exact h1 a b hab.2

theorem quietAfter_of_cons {e : Ev} {l : List Ev} (h : quietAfter (e :: l)) :
    quietAfter l := by
  intro a b hab
  exact h (e :: a) b (by rw [List.cons_append, hab])

theorem quietAfter_of_no_false {l : List Ev} (h : Ev.chk false ∉ l) : quietAfter l := by
  induction l with
  | nil => exact quietAfter_nil
  | cons e t ih =>
    refine quietAfter_cons (ih fun hm => h (List.mem_cons_of_mem e hm)) ?_
    intro he
    exact absurd (he ▸ List.mem_cons_self e t) h

theorem quietAfter_head_false {l : List Ev} (h : quietAfter (Ev.chk false :: l)) :
    allQuiet l :=
  h [] l rfl

theorem quietAfter_append {a b : List Ev} (ha : quietAfter a) (hb : quietAfter b)
    (hab : Ev.chk false ∈ a → allQuiet b) : quietAfter (a ++ b) := by
  induction a with
  | nil => simpa using hb
  | cons e t ih =>
    rw [List.cons_append]
    refine quietAfter_cons (ih (quietAfter_of_cons ha) fun hm => hab (List.mem_cons_of_mem e hm)) ?_
    intro he
    subst he
    exact allQuiet_append (quietAfter_head_false ha) (hab (List.mem_cons_self _ t))

theorem live_false_propagate {live : Nat → Bool} (hmono : LiveMono live) {j : Nat}
    (h : live j = false) : ∀ m, j ≤ m → live m = false := by
  intro m hm
  induction m, hm using Nat.le_induction with
  | base => exact h
  | succ n _ ih =>
    cases hv : live (n + 1) with
    | false => rfl
    | true => exact absurd (hmono n hv) (by simp [ih])

/-! ## C10: wrapper send counts attempted frames -/

/-- C10: `ProfAIWebSocketWrapper.send` increments `message_count` and
updates `last_activity` before attempting the transport send, so the
counter is incremented even when the transmission fails with a closed
connection (`ok = false`): `message_count` counts attempted frames, not
delivered frames. -/
theorem c10_send_counts_attempted_frames (st : WrapperState) (now : Nat) (ok : Bool) :
    (wrapperSend st now ok).1.message_count = st.message_count + 1 ∧
    (wrapperSend st now ok).1.last_activity = now ∧
    (wrapperSend st now ok).2 = ok := by
  simp [wrapperSend]

/-! ## C6: close() teardown -/

/-- C6 (code bug): `ProfAIWebSocketWrapper.close` attempts exactly one
final metrics frame and swallows every failure in both cases, but when
the metrics send fails the `await self.websocket.close()` sitting after
it inside the same `try` block is skipped, so the transport is *not*
released unconditionally. -/
theorem c6_close_skips_transport_release_on_send_failure :
    (wrapperClose ⟨0, 0⟩ 1 false).2 = ⟨1, false, false⟩ ∧
    (wrapperClose ⟨0, 0⟩ 1 true).2 = ⟨1, true, false⟩ := by
  constructor <;> rfl

/-! ## C8: metrics invariant -/

theorem applyEvent_inv {m : Metrics} (h : MetricsInv m) (e : ReqEvent) :
    MetricsInv (applyEvent m e) := by
  cases e with
  | chatDisconnected ab => cases ab <;> simp_all [MetricsInv, applyEvent]
  | routerDisconnect ab => cases ab <;> simp_all [MetricsInv, applyEvent]
  | _ => simp_all [MetricsInv, applyEvent] <;> omega

theorem applyEvent_le (m : Metrics) (e : ReqEvent) : MetricsLE m (applyEvent m e) := by
  cases e with
  | chatDisconnected ab => cases ab <;> simp [MetricsLE, applyEvent]
  | routerDisconnect ab => cases ab <;> simp [MetricsLE, applyEvent]
  | _ => simp [MetricsLE, applyEvent]

theorem metricsLE_trans {a b c : Metrics} (h1 : MetricsLE a b) (h2 : MetricsLE b c) :
    MetricsLE a c := by
  obtain ⟨x1, x2, x3, x4⟩ := h1
  obtain ⟨y1, y2, y3, y4⟩ := h2
  exact ⟨x1.trans y1, x2.trans y2, x3.trans y3, x4.trans y4⟩

theorem foldl_inv (l : List ReqEvent) : ∀ m : Metrics, MetricsInv m →
    MetricsInv (l.foldl applyEvent m) := by
  induction l with
  | nil => intro m h; exact h
  | cons e t ih => intro m h; exact ih _ (applyEvent_inv h e)

theorem foldl_le (l : List ReqEvent) : ∀ m : Metrics, MetricsLE m (l.foldl applyEvent m) := by
  induction l with
  | nil => intro m; exact ⟨le_refl _, le_refl _, le_refl _, le_refl _⟩
  | cons e t ih => intro m; exact metricsLE_trans (applyEvent_le m e) (ih (applyEvent m e))

/-- C8: across any session history, `total_requests` always equals
`chat_requests + audio_requests + teaching_requests`, and extending the
history with further requests never decreases `total_requests` or any
per-kind counter. -/
theorem c8_metrics_sum_invariant_and_monotone (pre suf : List ReqEvent) :
    MetricsInv (runMetrics pre) ∧
    MetricsLE (runMetrics pre) (runMetrics (pre ++ suf)) := by
  constructor
  · exact foldl_inv pre initMetrics rfl
  · rw [runMetrics, runMetrics, List.foldl_append]
    exact foldl_le suf _

/-! ## C5: disconnection classification -/

/-- C5 counterexample: the message of a closure carrying no closure code
at all, `connection lost`, is classified as a NORMAL disconnection, so
classification is not determined by the two low closure codes. -/
theorem c5_counterexample_codeless_closure_normal :
    is_normal_disconnection "connection lost".toList = true ∧
    containsSub "connection lost".toList "1000".toList = false ∧
    containsSub "connection lost".toList "1001".toList = false := by
  constructor
  · rfl
  · constructor <;> rfl

/-- C5 (amended): the classification is a total function of the message
text alone, returning NORMAL exactly when the message contains the digit
string 1000 or 1001, or contains (case-insensitively) one of the four
phrases connection closed / client disconnected / going away /
connection lost; every other closure, including any closure with neither
a low code nor such a phrase in its message, is classified as abnormal. -/
theorem c5_amended_classification_criterion (msg : List Char) :
    is_normal_disconnection msg = true ↔
      (containsSub msg "1000".toList = true ∨ containsSub msg "1001".toList = true ∨
        ∃ p ∈ disconnectionPhrases, containsSub (lowerStr msg) p = true) := by
  unfold is_normal_disconnection
  split
  · rename_i h
    rw [Bool.or_eq_true] at h
    exact iff_of_true rfl (h.imp id Or.inl)
  · rename_i h
    rw [Bool.or_eq_true] at h
    constructor
    · intro ha
      obtain ⟨p, hp, hc⟩ := List.any_eq_true.mp ha
      exact Or.inr (Or.inr ⟨p, hp, hc⟩)
    · rintro (h1 | h1 | ⟨p, hp, hc⟩)
      · exact absurd (Or.inl h1) h
      · exact absurd (Or.inr h1) h
      · exact List.any_eq_true.mpr ⟨p, hp, hc⟩

/-! ## C9: start_class index validation -/

theorem pyGet_some_lt {α : Type} {l : List α} {i : Int} {x : α}
    (h : pyGet l i = some x) : ¬ ((l.length : Int) ≤ i) := by
  intro hle
  unfold pyGet at h
  have h0 : 0 ≤ i := le_trans (by positivity) hle
  rw [if_pos h0] at h
  have hlt := (List.get?_eq_some.mp h).1
  omega

/-- C9 counterexample: a `start_class` request for the stored one-module
course with module index `-2` is out of range (Python raises
`IndexError`), yet the caller receives only the generic content-loading
error frame - no frame naming the missing index and the available
range. -/
theorem c9_counterexample_negative_index_generic_error :
    pyGet demoCourse.modules (-2) = none ∧
    handle_start_class (some demoCourse) (-2) 0 "teach" =
      [SFrame.classStarting, SFrame.errorLoadFailed] := by
  constructor <;> rfl

/-- C9 (amended): for every out-of-range module or sub-topic index the
session sends no `course_info` and no `teaching_content` frame and does
not crash; an index at or above the module (resp. sub-topic) count
produces the error frame naming that index and the available range,
while a negative below-range index is caught by the generic
content-loading handler and produces its generic error frame instead. -/
theorem c9_amended_out_of_range_start_class (c : Course) (mi si : Int) (teach : String)
    (h : pyGet c.modules mi = none ∨
      ∃ m, pyGet c.modules mi = some m ∧ pyGet m.sub_topics si = none) :
    (∀ t1 t2, SFrame.courseInfo t1 t2 ∉ handle_start_class (some c) mi si teach) ∧
    (∀ t, SFrame.teachingContent t ∉ handle_start_class (some c) mi si teach) ∧
    ((c.modules.length : Int) ≤ mi →
      handle_start_class (some c) mi si teach =
        [SFrame.classStarting, SFrame.errorModuleRange mi ((c.modules.length : Int) - 1)]) ∧
    (pyGet c.modules mi = none → ¬ ((c.modules.length : Int) ≤ mi) →
      handle_start_class (some c) mi si teach =
        [SFrame.classStarting, SFrame.errorLoadFailed]) ∧
    (∀ m, pyGet c.modules mi = some m → (m.sub_topics.length : Int) ≤ si →
      handle_start_class (some c) mi si teach =
        [SFrame.classStarting, SFrame.errorSubTopicRange si ((m.sub_topics.length : Int) - 1)]) := by
  have base : handle_start_class (some c) mi si teach =
      SFrame.classStarting ::
        (if (c.modules.length : Int) ≤ mi then
          [SFrame.errorModuleRange mi ((c.modules.length : Int) - 1)]
        else
          match pyGet c.modules mi with
          | none => [SFrame.errorLoadFailed]
          | some m =>
            if (m.sub_topics.length : Int) ≤ si then
              [SFrame.errorSubTopicRange si ((m.sub_topics.length : Int) - 1)]
            else
              match pyGet m.sub_topics si with
              | none => [SFrame.errorLoadFailed]
              | some st =>
                [SFrame.courseInfo m.title st.title, SFrame.teachingContent teach,
                 SFrame.audioStarted]) := rfl
  have herr : ∃ e, handle_start_class (some c) mi si teach = [SFrame.classStarting, e] ∧
      (e = SFrame.errorModuleRange mi ((c.modules.length : Int) - 1) ∨
       e = SFrame.errorLoadFailed ∨
       (∃ m, pyGet c.modules mi = some m ∧
         e = SFrame.errorSubTopicRange si ((m.sub_topics.length : Int) - 1))) := by
    rw [base]
    by_cases h1 : (c.modules.length : Int) ≤ mi
    · exact ⟨_, by rw [if_pos h1], Or.inl rfl⟩
    · rw [if_neg h1]
      rcases h with hnone | ⟨m, hm, hs⟩
      · simp only [hnone]
        exact ⟨_, rfl, Or.inr (Or.inl rfl)⟩
      · simp only [hm]
        by_cases h2 : (m.sub_topics.length : Int) ≤ si
        · rw [if_pos h2]
          exact ⟨_, rfl, Or.inr (Or.inr ⟨m, rfl, rfl⟩)⟩
        · rw [if_neg h2]
          simp only [hs]
          exact ⟨_, rfl, Or.inr (Or.inl rfl)⟩
  obtain ⟨e, heq, hcases⟩ := herr
  refine ⟨?_, ?_, ?_, ?_, ?_⟩
  · intro t1 t2 hmem
    rw [heq] at hmem
    rcases hcases with he | he | ⟨m, _, he⟩ <;> subst he <;> simp at hmem
  · intro t hmem
    rw [heq] at hmem
    rcases hcases with he | he | ⟨m, _, he⟩ <;> subst he <;> simp at hmem
  · intro hle
    rw [base, if_pos hle]
  · intro hnone hnle
    rw [base, if_neg hnle]
    simp only [hnone]
  · intro m hm hle
    rw [base, if_neg (pyGet_some_lt hm)]
    simp only [hm]
    rw [if_pos hle]

/-- C9 amended witness: requesting module 5 of the one-module course
produces exactly the acknowledgment and the range-naming error frame. -/
theorem c9_amended_witness :
    handle_start_class (some demoCourse) 5 0 "t" =
      [SFrame.classStarting, SFrame.errorModuleRange 5 0] := by
  have h := c9_amended_out_of_range_start_class demoCourse 5 0 "t" (Or.inl (by rfl))
  have := h.2.2.1 (by decide)
  simpa using this

/-! ## Normalization lemmas -/

theorem dropWhile_no_sat {p : Char → Bool} {l : List Char} (h : ∀ c ∈ l, p c = false) :
    l.dropWhile p = l := by
  cases l with
  | nil => rfl
  | cons c t =>
    exact List.dropWhile_cons_of_neg (by simp [h c (List.mem_cons_self c t)])

theorem length_dropWhile_le_self (p : Char → Bool) (l : List Char) :
    (l.dropWhile p).length ≤ l.length := by
  induction l with
  | nil => simp
  | cons c t ih =>
    by_cases hp : p c = true
    · rw [List.dropWhile_cons_of_pos hp]
      simp only [List.length_cons]
      omega
    · rw [List.dropWhile_cons_of_neg hp]

theorem pyStrip_no_ws {l : List Char} (h : ∀ c ∈ l, pyWS c = false) : pyStrip l = l := by
  unfold pyStrip
  rw [dropWhile_no_sat h,
    dropWhile_no_sat (fun c hc => h c (List.mem_reverse.mp hc)), List.reverse_reverse]

theorem mdStrip_id {l : List Char} (h : ∀ c ∈ l, mdChar c = false) : mdStrip l = l := by
  induction l with
  | nil => rfl
  | cons c t ih =>
    unfold mdStrip at ih ⊢
    simp [List.map_cons, h c (List.mem_cons_self c t),
      ih (fun d hd => h d (List.mem_cons_of_mem c hd))]

theorem keepEssential_id {l : List Char} (h : ∀ c ∈ l, keepChar c = true) :
    keepEssential l = l := by
  induction l with
  | nil => rfl
  | cons c t ih =>
    unfold keepEssential at ih ⊢
    simp [List.map_cons, h c (List.mem_cons_self c t),
      ih (fun d hd => h d (List.mem_cons_of_mem c hd))]

theorem fixEllipsisAux_no_dots {l : List Char} (h : ∀ c ∈ l, (c == '.') = false) :
    fixEllipsisAux 0 l = l := by
  induction l with
  | nil => rfl
  | cons c t ih =>
    unfold fixEllipsisAux
    rw [if_neg (by simp [h c (List.mem_cons_self c t)])]
    simp only [emitDots, if_neg (by omega : ¬ 3 ≤ 0), List.replicate_zero, List.nil_append]
    rw [ih (fun d hd => h d (List.mem_cons_of_mem c hd))]

theorem collapseWSAux_nonws_cons {c : Char} (hc : pyWS c = false) (b : Bool)
    (r : List Char) : collapseWSAux b (c :: r) = c :: collapseWSAux false r := by
  rw [collapseWSAux]
  rw [if_neg (by simp [hc])]

theorem collapseWSAux_word {w : List Char} (hw : ∀ c ∈ w, pyWS c = false) :
    ∀ (b : Bool) (r : List Char), w ≠ [] →
      collapseWSAux b (w ++ r) = w ++ collapseWSAux false r := by
  induction w with
  | nil => intro b r hne; contradiction
  | cons c t ih =>
    intro b r _
    rw [List.cons_append, collapseWSAux_nonws_cons (hw c (List.mem_cons_self c t))]
    cases t with
    | nil => simp
    | cons d t2 =>
      rw [ih (fun x hx => hw x (List.mem_cons_of_mem c hx)) false r (List.cons_ne_nil d t2)]
      rfl

theorem collapseWS_no_ws {l : List Char} (h : ∀ c ∈ l, pyWS c = false) :
    collapseWS l = l := by
  cases l with
  | nil => rfl
  | cons c t =>
    have := collapseWSAux_word h false [] (List.cons_ne_nil c t)
    unfold collapseWS
    simpa [collapseWSAux] using this

theorem cleanPasses_rep_a (n : Nat) :
    cleanPasses (List.replicate n 'a') = List.replicate n 'a' := by
  have ha : ∀ c ∈ List.replicate n 'a', c = 'a' := fun c hc => List.eq_of_mem_replicate hc
  unfold cleanPasses fixEllipsis
  rw [mdStrip_id (fun c hc => by rw [ha c hc]; rfl),
    fixEllipsisAux_no_dots (fun c hc => by rw [ha c hc]; rfl),
    keepEssential_id (fun c hc => by rw [ha c hc]; rfl),
    collapseWS_no_ws (fun c hc => by rw [ha c hc]; rfl)]

theorem rep_get? (ch : Char) : ∀ (n i : Nat), i < n →
    (List.replicate n ch).get? i = some ch := by
  intro n
  induction n with
  | zero => intro i hi; omega
  | succ m ih =>
    intro i hi
    rw [List.replicate_succ]
    cases i with
    | zero => rfl
    | succ j => exact ih j (by omega)

theorem dropWhile_append_single {p : Char → Bool} {d : Char} (hd : p d = false) :
    ∀ (x : List Char), List.dropWhile p (x ++ [d]) = x.dropWhile p ++ [d] := by
  intro x
  induction x with
  | nil =>
    simp only [List.nil_append, List.dropWhile_nil]
    exact List.dropWhile_cons_of_neg (by simp [hd])
  | cons c t ih =>
    by_cases hp : p c = true
    · rw [List.cons_append, List.dropWhile_cons_of_pos hp, ih,
        List.dropWhile_cons_of_pos hp]
    · rw [List.cons_append, List.dropWhile_cons_of_neg hp,
        List.dropWhile_cons_of_neg hp, List.cons_append]

theorem clean_ultra_eq (l : List Char) :
    clean_text_for_ultra_fast_streaming l =
      pyStrip (if 5000 < (cleanPasses l).length then
        (cleanPasses l).take 4800 ++ ['.'] else cleanPasses l) := rfl

theorem pyStrip_append_dot (x : List Char) :
    pyStrip (x ++ ['.']) = x.dropWhile pyWS ++ ['.'] := by
  unfold pyStrip
  rw [dropWhile_append_single (by rfl) x]
  rw [show (x.dropWhile pyWS ++ ['.']).reverse = '.' :: (x.dropWhile pyWS).reverse by
    simp]
  rw [List.dropWhile_cons_of_neg (by simp [pyWS])]
  simp

/-! ## C7: streaming length cap -/

/-- C7 counterexample: the normalized form of `capInput` is 5001 word
characters, above the 5000 cap; the characters on both sides of the cut
position 4800 are word characters of one single word, and the cleaned
result is literally the first 4800 characters with a period appended -
the truncation falls mid-word. -/
theorem c7_counterexample_cap_cuts_mid_word :
    5000 < (cleanPasses capInput).length ∧
    (cleanPasses capInput).get? 4799 = some 'a' ∧
    (cleanPasses capInput).get? 4800 = some 'a' ∧
    wordChar 'a' = true ∧
    clean_text_for_ultra_fast_streaming capInput =
      List.replicate 4800 'a' ++ ['.'] := by
  have hc : cleanPasses capInput = List.replicate 5001 'a' := cleanPasses_rep_a 5001
  have hlen : (cleanPasses capInput).length = 5001 := by rw [hc, List.length_replicate]
  refine ⟨by omega, ?_, ?_, rfl, ?_⟩
  · rw [hc]; exact rep_get? 'a' 5001 4799 (by omega)
  · rw [hc]; exact rep_get? 'a' 5001 4800 (by omega)
  · rw [clean_ultra_eq, hc, if_pos (by rw [List.length_replicate]; omega)]
    rw [List.take_replicate, show (4800 ⊓ 5001) = 4800 by omega, pyStrip_append_dot]
    rw [dropWhile_no_sat (fun c hcm => by rw [List.eq_of_mem_replicate hcm]; rfl)]

/-- C7 (amended): for every input whose normalized text exceeds 5000
characters, the result is the first 4800 normalized characters (with
leading whitespace stripped) plus an appended period: it always ends
with a sentence terminator and is at most 4801 characters long, but the
cut sits at a fixed character offset and can fall in the middle of a
word (see the counterexample). -/
theorem c7_amended_hard_cap (t : List Char)
    (h : 5000 < (cleanPasses t).length) :
    clean_text_for_ultra_fast_streaming t =
      ((cleanPasses t).take 4800).dropWhile pyWS ++ ['.'] ∧
    (clean_text_for_ultra_fast_streaming t).getLast? = some '.' ∧
    (clean_text_for_ultra_fast_streaming t).length ≤ 4801 := by
  have heq : clean_text_for_ultra_fast_streaming t =
      ((cleanPasses t).take 4800).dropWhile pyWS ++ ['.'] := by
    rw [clean_ultra_eq, if_pos h, pyStrip_append_dot]
  refine ⟨heq, ?_, ?_⟩
  · rw [heq]
    exact List.getLast?_concat _
  · rw [heq]
    have h1 := length_dropWhile_le_self pyWS ((cleanPasses t).take 4800)
    have h2 : ((cleanPasses t).take 4800).length ≤ 4800 := by
      rw [List.length_take]; omega
    simp only [List.length_append, List.length_cons, List.length_nil]
    omega

/-- C7 amended witness: at `capInput` the hypothesis holds and the
cleaned result ends with a period. -/
theorem c7_amended_hard_cap_witness :
    5000 < (cleanPasses capInput).length ∧
    (clean_text_for_ultra_fast_streaming capInput).getLast? = some '.' := by
  have h : 5000 < (cleanPasses capInput).length := by
    have hc : cleanPasses capInput = List.replicate 5001 'a' := cleanPasses_rep_a 5001
    rw [hc, List.length_replicate]
    omega
  exact ⟨h, (c7_amended_hard_cap capInput h).2.1⟩

/-! ## Word-join lemmas for concrete multi-segment texts -/

theorem spaceJoin_cons_cons (w w2 : List Char) (ws : List (List Char)) :
    spaceJoin (w :: w2 :: ws) = w ++ ' ' :: spaceJoin (w2 :: ws) := rfl

theorem pySplitAux_word {w : List Char} (hw : ∀ c ∈ w, pyWS c = false) :
    ∀ (cur r : List Char), pySplitAux cur (w ++ r) = pySplitAux (w.reverse ++ cur) r := by
  induction w with
  | nil => intro cur r; simp
  | cons c t ih =>
    intro cur r
    rw [List.cons_append, pySplitAux,
      if_neg (by simp [hw c (List.mem_cons_self c t)]),
      ih (fun d hd => hw d (List.mem_cons_of_mem c hd)) (c :: cur) r]
    simp

theorem pySplitAux_space (cur r : List Char) (h : cur ≠ []) :
    pySplitAux cur (' ' :: r) = cur.reverse :: pySplitAux [] r := by
  rw [pySplitAux, if_pos (by rfl), if_neg h]

theorem pySplitAux_end (cur : List Char) (h : cur ≠ []) :
    pySplitAux cur [] = [cur.reverse] := by
  rw [pySplitAux, if_neg h]

theorem pySplit_spaceJoin : ∀ (ws : List (List Char)), (∀ w ∈ ws, NoWSWord w) →
    pySplit (spaceJoin ws) = ws := by
  intro ws
  induction ws with
  | nil => intro _; rfl
  | cons w tail ih =>
    intro h
    obtain ⟨hw1, hw2⟩ := h w (List.mem_cons_self w tail)
    cases tail with
    | nil =>
      show pySplitAux [] (spaceJoin [w]) = [w]
      rw [show spaceJoin [w] = w ++ [] by simp [spaceJoin],
        pySplitAux_word hw2 [] [], pySplitAux_end _ (by simp [hw1]), List.append_nil,
        List.reverse_reverse]
    | cons w2 ws2 =>
      show pySplitAux [] (spaceJoin (w :: w2 :: ws2)) = w :: w2 :: ws2
      rw [spaceJoin_cons_cons, pySplitAux_word hw2 [] _, List.append_nil,
        pySplitAux_space _ _ (by simp [hw1]), List.reverse_reverse]
      rw [show pySplitAux [] (spaceJoin (w2 :: ws2)) = pySplit (spaceJoin (w2 :: ws2)) from rfl,
        ih (fun x hx => h x (List.mem_cons_of_mem w hx))]

theorem collapseWSAux_space_cons (r : List Char) :
    collapseWSAux false (' ' :: r) = ' ' :: collapseWSAux true r := by
  rw [collapseWSAux, if_pos (by rfl)]
  simp


theorem collapseWSAux_spaceJoin : ∀ (ws : List (List Char)) (b : Bool), ws ≠ [] →
    (∀ w ∈ ws, NoWSWord w) → collapseWSAux b (spaceJoin ws) = spaceJoin ws := by
  intro ws
  induction ws with
  | nil => intro b hne _; contradiction
  | cons w tail ih =>
    intro b _ h
    obtain ⟨hw1, hw2⟩ := h w (List.mem_cons_self w tail)
    cases tail with
    | nil =>
      show collapseWSAux b (spaceJoin [w]) = spaceJoin [w]
      rw [show spaceJoin [w] = w ++ [] by simp [spaceJoin],
        collapseWSAux_word hw2 b [] hw1]
      rfl
    | cons w2 ws2 =>
      rw [spaceJoin_cons_cons, collapseWSAux_word hw2 b _ hw1, collapseWSAux_space_cons,
        ih true (List.cons_ne_nil w2 ws2) (fun x hx => h x (List.mem_cons_of_mem w hx))]

theorem mem_spaceJoin : ∀ {ws : List (List Char)} {c : Char}, c ∈ spaceJoin ws →
    (∃ w ∈ ws, c ∈ w) ∨ c = ' ' := by
  intro ws
  induction ws with
  | nil => intro c hc; cases hc
  | cons w tail ih =>
    intro c hc
    cases tail with
    | nil => exact Or.inl ⟨w, by simp, hc⟩
    | cons w2 ws2 =>
      rw [spaceJoin_cons_cons] at hc
      rcases List.mem_append.mp hc with h | h
      · exact Or.inl ⟨w, by simp, h⟩
      · rcases List.mem_cons.mp h with h | h
        · exact Or.inr h
        · rcases ih h with ⟨x, hx1, hx2⟩ | h2
          · exact Or.inl ⟨x, List.mem_cons_of_mem w hx1, hx2⟩
          · exact Or.inr h2

theorem spaceJoin_head? {w : List Char} (ws : List (List Char)) (hw : w ≠ []) :
    (spaceJoin (w :: ws)).head? = w.head? := by
  cases w with
  | nil => contradiction
  | cons c t =>
    cases ws with
    | nil => rfl
    | cons w2 ws2 => rw [spaceJoin_cons_cons]; rfl

theorem dropWhile_head_no {p : Char → Bool} {l : List Char} {c : Char}
    (hh : l.head? = some c) (hc : p c = false) : l.dropWhile p = l := by
  cases l with
  | nil => rfl
  | cons d t =>
    simp only [List.head?_cons, Option.some.injEq] at hh
    exact List.dropWhile_cons_of_neg (by simp [hh ▸ hc])

theorem spaceJoin_append_last (y : List Char) : ∀ (xs : List (List Char)), xs ≠ [] →
    spaceJoin (xs ++ [y]) = spaceJoin xs ++ ' ' :: y := by
  intro xs
  induction xs with
  | nil => intro h; contradiction
  | cons x tail ih =>
    intro _
    cases tail with
    | nil => rfl
    | cons x2 t2 =>
      have ih2 := ih (List.cons_ne_nil x2 t2)
      rw [List.cons_append] at ih2
      simp only [List.cons_append]
      rw [spaceJoin_cons_cons x x2 (t2 ++ [y]), ih2, spaceJoin_cons_cons x x2 t2]
      simp [List.append_assoc]

theorem spaceJoin_reverse : ∀ (ws : List (List Char)),
    (spaceJoin ws).reverse = spaceJoin ((ws.map List.reverse).reverse) := by
  intro ws
  induction ws with
  | nil => rfl
  | cons w tail ih =>
    cases tail with
    | nil => rfl
    | cons w2 ws2 =>
      have hM : (List.map List.reverse (w2 :: ws2)).reverse ≠ [] := by simp
      rw [spaceJoin_cons_cons, List.reverse_append, List.reverse_cons]
      conv_rhs => rw [List.map_cons, List.reverse_cons, spaceJoin_append_last _ _ hM]
      rw [ih]
      simp [List.append_assoc]

theorem pyStrip_spaceJoin {w : List Char} {ws : List (List Char)}
    (h : ∀ x ∈ w :: ws, NoWSWord x) : pyStrip (spaceJoin (w :: ws)) = spaceJoin (w :: ws) := by
  obtain ⟨hw1, hw2⟩ := h w (List.mem_cons_self w ws)
  have hhead : (spaceJoin (w :: ws)).head? = w.head? := spaceJoin_head? ws hw1
  obtain ⟨c, t, rfl⟩ : ∃ c t, w = c :: t := by
    cases w with
    | nil => contradiction
    | cons c t => exact ⟨c, t, rfl⟩
  have hd1 : (spaceJoin ((c :: t) :: ws)).dropWhile pyWS = spaceJoin ((c :: t) :: ws) :=
    dropWhile_head_no hhead (hw2 c (List.mem_cons_self c t))
  have hrev : (spaceJoin ((c :: t) :: ws)).reverse =
      spaceJoin (((((c :: t) :: ws)).map List.reverse).reverse) := spaceJoin_reverse _
  have hrw : ∀ x ∈ ((((c :: t) :: ws)).map List.reverse).reverse, NoWSWord x := by
    intro x hx
    rw [List.mem_reverse, List.mem_map] at hx
    obtain ⟨y, hy, rfl⟩ := hx
    obtain ⟨hy1, hy2⟩ := h y hy
    exact ⟨by simp [hy1], fun d hd => hy2 d (List.mem_reverse.mp hd)⟩
  have hne2 : ((((c :: t) :: ws)).map List.reverse).reverse ≠ [] := by simp
  obtain ⟨v, vs, hvv⟩ : ∃ v vs, ((((c :: t) :: ws)).map List.reverse).reverse = v :: vs := by
    cases hx : ((((c :: t) :: ws)).map List.reverse).reverse with
    | nil => exact absurd hx hne2
    | cons v vs => exact ⟨v, vs, rfl⟩
  have hv := hrw v (hvv ▸ List.mem_cons_self v vs)
  obtain ⟨d, u, rfl⟩ : ∃ d u, v = d :: u := by
    cases v with
    | nil => exact absurd rfl hv.1
    | cons d u => exact ⟨d, u, rfl⟩
  have hd2 : (spaceJoin ((d :: u) :: vs)).dropWhile pyWS = spaceJoin ((d :: u) :: vs) :=
    dropWhile_head_no (spaceJoin_head? vs hv.1) (hv.2 d (List.mem_cons_self d u))
  unfold pyStrip
  rw [hd1, hrev, hvv, hd2, ← hvv, ← hrev, List.reverse_reverse]

/-! ## The six-segment counterexample text -/

theorem w400_length : w400.length = 400 := List.length_replicate 400 'a'

theorem w400_ne_nil : w400 ≠ [] := by
  intro h
  have hl := w400_length
  rw [h] at hl
  simp at hl

theorem w400_no_ws : ∀ c ∈ w400, pyWS c = false := by
  intro c hc
  have hc2 : c ∈ List.replicate 400 'a' := hc
  rw [List.eq_of_mem_replicate hc2]
  rfl

theorem w400_word : NoWSWord w400 := ⟨w400_ne_nil, w400_no_ws⟩

theorem rep_w400_words (n : Nat) : ∀ w ∈ List.replicate n w400, NoWSWord w :=
  fun _w hw => (List.eq_of_mem_replicate hw) ▸ w400_word

theorem pyStrip_w400 : pyStrip w400 = w400 := pyStrip_no_ws w400_no_ws

theorem pyStrip_cons_ws {c : Char} {l : List Char} (hc : pyWS c = true) :
    pyStrip (c :: l) = pyStrip l := by
  unfold pyStrip
  rw [List.dropWhile_cons_of_pos hc]

theorem fanoutText_chars : ∀ c ∈ fanoutText, c = 'a' ∨ c = ' ' := by
  intro c hc
  have hc2 : c ∈ spaceJoin (List.replicate 6 w400) := hc
  rcases mem_spaceJoin hc2 with ⟨w, hw, hcw⟩ | h
  · left
    rw [List.eq_of_mem_replicate hw] at hcw
    have hcw2 : c ∈ List.replicate 400 'a' := hcw
    exact List.eq_of_mem_replicate hcw2
  · exact Or.inr h

theorem cleanPasses_fanoutText : cleanPasses fanoutText = fanoutText := by
  unfold cleanPasses fixEllipsis
  rw [mdStrip_id (fun c hc => by rcases fanoutText_chars c hc with h | h <;> rw [h] <;> rfl),
    fixEllipsisAux_no_dots
      (fun c hc => by rcases fanoutText_chars c hc with h | h <;> rw [h] <;> rfl),
    keepEssential_id
      (fun c hc => by rcases fanoutText_chars c hc with h | h <;> rw [h] <;> rfl)]
  exact collapseWSAux_spaceJoin _ false (by simp) (rep_w400_words 6)

theorem fanoutText_split : fanoutText = w400 ++ ' ' :: spaceJoin (List.replicate 5 w400) := rfl

theorem fanoutText_length : fanoutText.length = 2405 := by
  rw [show fanoutText =
    w400 ++ ' ' :: (w400 ++ ' ' :: (w400 ++ ' ' :: (w400 ++ ' ' :: (w400 ++ ' ' :: w400))))
    from rfl]
  simp only [List.length_append, List.length_cons, w400_length]

theorem pyStrip_fanoutText : pyStrip fanoutText = fanoutText := by
  rw [show fanoutText = spaceJoin (w400 :: List.replicate 5 w400) from rfl]
  exact pyStrip_spaceJoin (by
    rw [show w400 :: List.replicate 5 w400 = List.replicate 6 w400 from rfl]
    exact rep_w400_words 6)

theorem clean_fanoutText :
    clean_text_for_ultra_fast_streaming fanoutText = fanoutText := by
  rw [clean_ultra_eq, cleanPasses_fanoutText, fanoutText_length]
  rw [if_neg (by omega)]
  exact pyStrip_fanoutText

theorem firstChunk_fanoutText :
    firstChunkLoop 800 (List.replicate 6 w400) [] 0 = w400 := by
  rw [show List.replicate 6 w400 = w400 :: w400 :: List.replicate 4 w400 from rfl]
  rw [firstChunkLoop, if_pos (by simp only [List.length_nil, w400_length]; omega),
    if_pos rfl, firstChunkLoop, if_neg (by simp only [w400_length]; omega)]

theorem splitFastStep_start (cks : List (List Char)) {w : List Char}
    (h : w.length + 1 ≤ 800) : splitFastStep 800 (cks, []) w = (cks, w) := by
  unfold splitFastStep
  dsimp only
  rw [if_pos (by simpa using h), if_pos rfl]

theorem splitFastStep_flush (cks : List (List Char)) :
    splitFastStep 800 (cks, w400) w400 = (cks ++ [w400], w400) := by
  unfold splitFastStep
  dsimp only
  rw [if_neg (by simp only [w400_length]; omega), if_neg w400_ne_nil, pyStrip_w400]

theorem split_text_fast_eq (text : List Char) (mc : Nat) :
    split_text_fast text mc =
      (if ((pySplit text).foldl (splitFastStep mc) ([], [])).2 = [] then
        ((pySplit text).foldl (splitFastStep mc) ([], [])).1
      else
        ((pySplit text).foldl (splitFastStep mc) ([], [])).1 ++
          [pyStrip ((pySplit text).foldl (splitFastStep mc) ([], [])).2]) := rfl

theorem foldl_flush (n : Nat) : ∀ (cks : List (List Char)),
    List.foldl (splitFastStep 800) (cks, w400) (List.replicate n w400) =
      (cks ++ List.replicate n w400, w400) := by
  induction n with
  | zero => intro cks; simp
  | succ m ih =>
    intro cks
    rw [List.replicate_succ, List.foldl_cons, splitFastStep_flush cks, ih (cks ++ [w400]),
      List.append_assoc]
    rfl

theorem split_fast_five :
    split_text_fast (spaceJoin (List.replicate 5 w400)) 800 = List.replicate 5 w400 := by
  have hsplit : pySplit (spaceJoin (List.replicate 5 w400)) = List.replicate 5 w400 :=
    pySplit_spaceJoin _ (rep_w400_words 5)
  have hfold : (pySplit (spaceJoin (List.replicate 5 w400))).foldl
      (splitFastStep 800) ([], []) = (List.replicate 4 w400, w400) := by
    rw [hsplit, show List.replicate 5 w400 = w400 :: List.replicate 4 w400 from rfl]
    rw [List.foldl_cons, splitFastStep_start [] (by rw [w400_length]; omega),
      foldl_flush 4 [], List.nil_append]
  rw [split_text_fast_eq, hfold]
  rw [if_neg w400_ne_nil, pyStrip_w400]
  show List.replicate 4 w400 ++ [w400] = List.replicate 5 w400
  rw [← List.replicate_succ']

theorem split_imm_eq (text : List Char) (mc : Nat) :
    split_text_for_immediate_streaming text mc =
      (if pySplit text = [] then []
      else if firstChunkLoop mc (pySplit text) [] 0 = [] then split_text_fast text mc
      else if pyStrip (text.drop (firstChunkLoop mc (pySplit text) [] 0).length) = [] then
        [pyStrip (firstChunkLoop mc (pySplit text) [] 0)]
      else
        pyStrip (firstChunkLoop mc (pySplit text) [] 0) ::
          split_text_fast (pyStrip (text.drop (firstChunkLoop mc (pySplit text) [] 0).length))
            mc) := rfl

theorem split_imm_fanoutText :
    split_text_for_immediate_streaming fanoutText 800 = List.replicate 6 w400 := by
  have hsplit : pySplit fanoutText = List.replicate 6 w400 :=
    pySplit_spaceJoin _ (rep_w400_words 6)
  have hdrop : fanoutText.drop w400.length = ' ' :: spaceJoin (List.replicate 5 w400) := by
    rw [fanoutText_split, List.drop_left]
  have hstrip5 : pyStrip (' ' :: spaceJoin (List.replicate 5 w400)) =
      spaceJoin (List.replicate 5 w400) := by
    rw [pyStrip_cons_ws (by rfl)]
    rw [show spaceJoin (List.replicate 5 w400) = spaceJoin (w400 :: List.replicate 4 w400)
      from rfl]
    exact pyStrip_spaceJoin (by
      rw [show w400 :: List.replicate 4 w400 = List.replicate 5 w400 from rfl]
      exact rep_w400_words 5)
  have hne5 : spaceJoin (List.replicate 5 w400) ≠ [] := by
    rw [show spaceJoin (List.replicate 5 w400) = w400 ++ ' ' :: spaceJoin (List.replicate 4 w400)
      from rfl]
    intro h
    have hl := congrArg List.length h
    rw [List.length_append, List.length_cons, w400_length, List.length_nil] at hl
    omega
  rw [split_imm_eq, if_neg (by
      rw [hsplit]
      intro h
      have hl := congrArg List.length h
      simp at hl), hsplit, firstChunk_fanoutText,
    if_neg w400_ne_nil, hdrop, hstrip5, if_neg hne5, pyStrip_w400, split_fast_five]
  rfl

/-! ## Trace observation lemmas -/

@[simp] theorem yieldsOf_nil : yieldsOf [] = [] := rfl
@[simp] theorem yieldsOf_cons_chk (b : Bool) (l : List Ev) :
    yieldsOf (Ev.chk b :: l) = yieldsOf l := rfl
@[simp] theorem yieldsOf_cons_call (s : Nat) (l : List Ev) :
    yieldsOf (Ev.call s :: l) = yieldsOf l := rfl
@[simp] theorem yieldsOf_cons_done (s : Nat) (l : List Ev) :
    yieldsOf (Ev.done s :: l) = yieldsOf l := rfl
@[simp] theorem yieldsOf_cons_cancel (s : Nat) (l : List Ev) :
    yieldsOf (Ev.cancel s :: l) = yieldsOf l := rfl
@[simp] theorem yieldsOf_cons_yld (s : Nat) (c : List Nat) (l : List Ev) :
    yieldsOf (Ev.yld s c :: l) = (s, c) :: yieldsOf l := rfl
@[simp] theorem yieldsOf_append (a b : List Ev) :
    yieldsOf (a ++ b) = yieldsOf a ++ yieldsOf b := List.filterMap_append a b _

@[simp] theorem callsOf_nil : callsOf [] = [] := rfl
@[simp] theorem callsOf_cons_chk (b : Bool) (l : List Ev) :
    callsOf (Ev.chk b :: l) = callsOf l := rfl
@[simp] theorem callsOf_cons_call (s : Nat) (l : List Ev) :
    callsOf (Ev.call s :: l) = s :: callsOf l := rfl
@[simp] theorem callsOf_cons_done (s : Nat) (l : List Ev) :
    callsOf (Ev.done s :: l) = callsOf l := rfl
@[simp] theorem callsOf_cons_cancel (s : Nat) (l : List Ev) :
    callsOf (Ev.cancel s :: l) = callsOf l := rfl
@[simp] theorem callsOf_cons_yld (s : Nat) (c : List Nat) (l : List Ev) :
    callsOf (Ev.yld s c :: l) = callsOf l := rfl
@[simp] theorem callsOf_append (a b : List Ev) :
    callsOf (a ++ b) = callsOf a ++ callsOf b := List.filterMap_append a b _

/-! ## Unfolding equations for the pipeline entry points -/

theorem stream_audio_generation_eq (live : Nat → Bool) (oracle : Nat → List (List Nat))
    (order : List Nat) (text : List Char) :
    stream_audio_generation live oracle order text =
      (if live 0 then
        (if (clean_text_for_ultra_fast_streaming text).length ≤ 800 then
          Ev.chk true :: (streamDirect live 1 (oracle 0)).1
        else
          Ev.chk true ::
            streamImmediate live oracle order 1 (clean_text_for_ultra_fast_streaming text))
      else [Ev.chk false]) := rfl

theorem streamDirect_eq (live : Nat → Bool) (k : Nat) (prov : List (List Nat)) :
    streamDirect live k prov =
      (if live k then
        (if (directLoop live (k + 1) prov).completed then
          (Ev.chk true :: Ev.call 0 :: (directLoop live (k + 1) prov).evs ++
            [Ev.chk (live (directLoop live (k + 1) prov).next), Ev.done 0],
           (directLoop live (k + 1) prov).next + 1)
        else
          (Ev.chk true :: Ev.call 0 :: (directLoop live (k + 1) prov).evs ++ [Ev.done 0],
           (directLoop live (k + 1) prov).next))
      else ([Ev.chk false], k + 1)) := rfl

theorem streamImmediate_eq (live : Nat → Bool) (oracle : Nat → List (List Nat))
    (order : List Nat) (k : Nat) (text : List Char) :
    streamImmediate live oracle order k text =
      (if live k then
        (if split_text_for_immediate_streaming text 800 = [] then [Ev.chk true]
        else
          if live (k + 1) then
            (match (firstLoop live (k + 2) (oracle 0)).exitKind with
            | FirstExit.aborted =>
              Ev.chk true :: Ev.chk true :: Ev.call 0 ::
                (firstLoop live (k + 2) (oracle 0)).evs ++ [Ev.done 0]
            | FirstExit.providerStopped =>
              Ev.chk true :: Ev.chk true :: Ev.call 0 ::
                (firstLoop live (k + 2) (oracle 0)).evs ++ [Ev.done 0] ++
                fanoutPhase live oracle (firstLoop live (k + 2) (oracle 0)).next
                  (split_text_for_immediate_streaming text 800).length order
            | FirstExit.finished =>
              Ev.chk true :: Ev.chk true :: Ev.call 0 ::
                (firstLoop live (k + 2) (oracle 0)).evs ++
                [Ev.chk (live (firstLoop live (k + 2) (oracle 0)).next), Ev.done 0] ++
                fanoutPhase live oracle ((firstLoop live (k + 2) (oracle 0)).next + 1)
                  (split_text_for_immediate_streaming text 800).length order)
          else
            Ev.chk true :: Ev.chk false ::
              fanoutPhase live oracle (k + 2)
                (split_text_for_immediate_streaming text 800).length order)
      else [Ev.chk false]) := rfl

/-! ## C3 counterexample -/

/-- C3 counterexample: streaming `fanoutText` (six segments) with a live
client reaches five concurrently pending provider calls: after the first
segment completes, `_stream_audio_immediate` creates one task per
remaining segment up front with no cap, exceeding the documented cap of
4 concurrent synthesis calls. -/
theorem c3_counterexample_streaming_fanout_exceeds_cap :
    maxPending (stream_audio_generation liveTrue capOracle [1, 2, 3, 4, 5] fanoutText) = 5 ∧
    4 < maxPending (stream_audio_generation liveTrue capOracle [1, 2, 3, 4, 5] fanoutText) := by
  have h5 : maxPending (stream_audio_generation liveTrue capOracle [1, 2, 3, 4, 5] fanoutText)
      = 5 := by
    rw [stream_audio_generation_eq, if_pos (show liveTrue 0 = true from rfl),
      clean_fanoutText, fanoutText_length, if_neg (by omega), streamImmediate_eq,
      split_imm_fanoutText]
    decide
  exact ⟨h5, by rw [h5]; omega⟩

/-! ## directLoop lemmas -/

theorem directLoop_nil (live : Nat → Bool) (k : Nat) :
    directLoop live k [] = ⟨[], k, true⟩ := rfl

theorem directLoop_cons (live : Nat → Bool) (k : Nat) (c : List Nat)
    (rest : List (List Nat)) :
    directLoop live k (c :: rest) =
      (if live k then
        ⟨Ev.chk true :: (if c = [] then (directLoop live (k + 1) rest).evs
          else Ev.yld 0 c :: (directLoop live (k + 1) rest).evs),
         (directLoop live (k + 1) rest).next, (directLoop live (k + 1) rest).completed⟩
      else ⟨[Ev.chk false], k + 1, false⟩) := rfl

theorem directLoop_calls (live : Nat → Bool) :
    ∀ (prov : List (List Nat)) (k : Nat), callsOf (directLoop live k prov).evs = [] := by
  intro prov
  induction prov with
  | nil => intro k; rfl
  | cons c rest ih =>
    intro k
    rw [directLoop_cons]
    by_cases hl : live k = true
    · rw [if_pos hl]
      by_cases hc : c = [] <;> simp [hc, ih (k + 1)]
    · rw [if_neg hl]
      rfl

theorem directLoop_yields_seg0 (live : Nat → Bool) :
    ∀ (prov : List (List Nat)) (k : Nat),
      ∀ p ∈ yieldsOf (directLoop live k prov).evs, p.1 = 0 := by
  intro prov
  induction prov with
  | nil => intro k p hp; cases hp
  | cons c rest ih =>
    intro k p hp
    rw [directLoop_cons] at hp
    by_cases hl : live k = true
    · rw [if_pos hl] at hp
      by_cases hc : c = []
      · rw [if_pos hc] at hp
        simp only [yieldsOf_cons_chk] at hp
        exact ih (k + 1) p hp
      · rw [if_neg hc] at hp
        simp only [yieldsOf_cons_chk, yieldsOf_cons_yld] at hp
        rcases List.mem_cons.mp hp with h | h
        · rw [h]
        · exact ih (k + 1) p h
    · rw [if_neg hl] at hp
      cases hp

theorem directLoop_all_live {live : Nat → Bool} (h : ∀ m, live m = true) :
    ∀ (prov : List (List Nat)) (k : Nat),
      (directLoop live k prov).completed = true ∧
      yieldsOf (directLoop live k prov).evs =
        (prov.filter (fun c => c ≠ [])).map (fun c => (0, c)) := by
  intro prov
  induction prov with
  | nil => intro k; exact ⟨rfl, rfl⟩
  | cons c rest ih =>
    intro k
    rw [directLoop_cons, if_pos (h k)]
    by_cases hc : c = []
    · rw [if_pos hc]
      refine ⟨(ih (k + 1)).1, ?_⟩
      simp only [yieldsOf_cons_chk, (ih (k + 1)).2, hc]
      simp
    · rw [if_neg hc]
      refine ⟨(ih (k + 1)).1, ?_⟩
      simp only [yieldsOf_cons_chk, yieldsOf_cons_yld, (ih (k + 1)).2]
      rw [List.filter_cons_of_pos (by simp [hc]), List.map_cons]

/-! ## C4: direct single-call path -/

/-- C4: for any text whose normalized length is at or below the 800
character direct-stream threshold, with the client connected throughout,
exactly one provider call is issued (that of the single direct stream),
and the forwarded chunks are exactly the nonempty chunks the provider
emits, in provider order. -/
theorem c4_direct_path_single_call (text : List Char) (live : Nat → Bool)
    (oracle : Nat → List (List Nat)) (order : List Nat)
    (hl : ∀ m, live m = true)
    (hlen : (clean_text_for_ultra_fast_streaming text).length ≤ 800) :
    callsOf (stream_audio_generation live oracle order text) = [0] ∧
    yieldsOf (stream_audio_generation live oracle order text) =
      ((oracle 0).filter (fun c => c ≠ [])).map (fun c => (0, c)) := by
  rw [stream_audio_generation_eq, if_pos (hl 0), if_pos hlen, streamDirect_eq,
    if_pos (hl 1), if_pos (directLoop_all_live hl (oracle 0) 2).1]
  constructor
  · simp [directLoop_calls live (oracle 0) 2]
  · simp [(directLoop_all_live hl (oracle 0) 2).2]

/-- C4 witness at a tiny concrete instance: the text `hi`, a provider
emitting one nonempty, one empty and one nonempty chunk. -/
theorem c4_direct_path_single_call_witness :
    callsOf (stream_audio_generation liveTrue (fun _ => [[1], [], [2]]) [] "hi".toList)
      = [0] ∧
    yieldsOf (stream_audio_generation liveTrue (fun _ => [[1], [], [2]]) [] "hi".toList)
      = [(0, [1]), (0, [2])] := by
  have h := c4_direct_path_single_call "hi".toList liveTrue (fun _ => [[1], [], [2]]) []
    (fun _ => rfl) (by decide)
  exact ⟨h.1, by rw [h.2]; decide⟩

/-! ## Batching of `_generate_audio_parallel_chunks` -/

theorem groupsOfAux_length_le {α : Type} (step : Nat) :
    ∀ (fuel : Nat) (l : List α) (b : List α), b ∈ groupsOfAux step fuel l →
      b.length ≤ step := by
  intro fuel
  induction fuel with
  | zero => intro l b hb; cases l <;> cases hb
  | succ m ih =>
    intro l b hb
    cases l with
    | nil => cases hb
    | cons x xs =>
      rcases List.mem_cons.mp hb with h | h
      · rw [h, List.length_take]
        omega
      · exact ih _ b h

theorem parallelBatches_le_four {α : Type} (l : List α) :
    ∀ b ∈ parallelBatches l, b.length ≤ 4 := by
  intro b hb
  unfold parallelBatches at hb
  by_cases h : l.length = 0
  · rw [if_pos h] at hb
    cases hb
  · rw [if_neg h] at hb
    have := groupsOfAux_length_le (min 4 l.length) l.length l b hb
    omega

/-! ## firstLoop lemmas -/

theorem firstLoop_nil (live : Nat → Bool) (k : Nat) :
    firstLoop live k [] = ⟨[], k, FirstExit.finished⟩ := rfl

theorem firstLoop_cons (live : Nat → Bool) (k : Nat) (c : List Nat)
    (rest : List (List Nat)) :
    firstLoop live k (c :: rest) =
      (if live k then
        (if c = [] then
          ⟨Ev.chk true :: (firstLoop live (k + 1) rest).evs,
           (firstLoop live (k + 1) rest).next, (firstLoop live (k + 1) rest).exitKind⟩
        else if live (k + 1) then
          ⟨Ev.chk true :: Ev.chk true :: Ev.yld 0 c :: (firstLoop live (k + 2) rest).evs,
           (firstLoop live (k + 2) rest).next, (firstLoop live (k + 2) rest).exitKind⟩
        else ⟨[Ev.chk true, Ev.chk false], k + 2, FirstExit.aborted⟩)
      else ⟨[Ev.chk false], k + 1, FirstExit.providerStopped⟩) := rfl

theorem firstLoop_calls (live : Nat → Bool) :
    ∀ (prov : List (List Nat)) (k : Nat), callsOf (firstLoop live k prov).evs = [] := by
  intro prov
  induction prov with
  | nil => intro k; rfl
  | cons c rest ih =>
    intro k
    rw [firstLoop_cons]
    by_cases hl : live k = true
    · rw [if_pos hl]
      by_cases hc : c = []
      · rw [if_pos hc]; simp [ih (k + 1)]
      · rw [if_neg hc]
        by_cases hl2 : live (k + 1) = true
        · rw [if_pos hl2]; simp [ih (k + 2)]
        · rw [if_neg hl2]; rfl
    · rw [if_neg hl]; rfl

theorem firstLoop_yields_seg0 (live : Nat → Bool) :
    ∀ (prov : List (List Nat)) (k : Nat),
      ∀ p ∈ yieldsOf (firstLoop live k prov).evs, p.1 = 0 := by
  intro prov
  induction prov with
  | nil => intro k p hp; cases hp
  | cons c rest ih =>
    intro k p hp
    rw [firstLoop_cons] at hp
    by_cases hl : live k = true
    · rw [if_pos hl] at hp
      by_cases hc : c = []
      · rw [if_pos hc] at hp
        simp only [yieldsOf_cons_chk] at hp
        exact ih (k + 1) p hp
      · rw [if_neg hc] at hp
        by_cases hl2 : live (k + 1) = true
        · rw [if_pos hl2] at hp
          simp only [yieldsOf_cons_chk, yieldsOf_cons_yld] at hp
          rcases List.mem_cons.mp hp with h | h
          · rw [h]
          · exact ih (k + 2) p h
        · rw [if_neg hl2] at hp
          cases hp
    · rw [if_neg hl] at hp
      cases hp

theorem firstLoop_all_live {live : Nat → Bool} (h : ∀ m, live m = true) :
    ∀ (prov : List (List Nat)) (k : Nat),
      (firstLoop live k prov).exitKind = FirstExit.finished ∧
      yieldsOf (firstLoop live k prov).evs =
        (prov.filter (fun c => c ≠ [])).map (fun c => (0, c)) := by
  intro prov
  induction prov with
  | nil => intro k; exact ⟨rfl, rfl⟩
  | cons c rest ih =>
    intro k
    rw [firstLoop_cons, if_pos (h k)]
    by_cases hc : c = []
    · rw [if_pos hc]
      refine ⟨(ih (k + 1)).1, ?_⟩
      simp only [yieldsOf_cons_chk, (ih (k + 1)).2, hc]
      simp
    · rw [if_neg hc, if_pos (h (k + 1))]
      refine ⟨(ih (k + 2)).1, ?_⟩
      simp only [yieldsOf_cons_chk, yieldsOf_cons_yld, (ih (k + 2)).2]
      rw [List.filter_cons_of_pos (by simp [hc]), List.map_cons]

theorem firstLoop_next_ge (live : Nat → Bool) :
    ∀ (prov : List (List Nat)) (k : Nat), k ≤ (firstLoop live k prov).next := by
  intro prov
  induction prov with
  | nil => intro k; exact le_refl k
  | cons c rest ih =>
    intro k
    rw [firstLoop_cons]
    by_cases hl : live k = true
    · rw [if_pos hl]
      by_cases hc : c = []
      · rw [if_pos hc]
        exact le_trans (by omega) (ih (k + 1))
      · rw [if_neg hc]
        by_cases hl2 : live (k + 1) = true
        · rw [if_pos hl2]
          exact le_trans (by omega) (ih (k + 2))
        · rw [if_neg hl2]
          simp
    · rw [if_neg hl]
      simp

theorem firstLoop_false {live : Nat → Bool} (hmono : LiveMono live) :
    ∀ (prov : List (List Nat)) (k : Nat),
      Ev.chk false ∈ (firstLoop live k prov).evs →
      ∀ m, (firstLoop live k prov).next ≤ m → live m = false := by
  intro prov
  induction prov with
  | nil => intro k hmem; cases hmem
  | cons c rest ih =>
    intro k hmem m hm
    rw [firstLoop_cons] at hmem hm
    by_cases hl : live k = true
    · rw [if_pos hl] at hmem hm
      by_cases hc : c = []
      · rw [if_pos hc] at hmem hm
        simp only [List.mem_cons] at hmem
        rcases hmem with h | h
        · cases h
        · exact ih (k + 1) h m hm
      · rw [if_neg hc] at hmem hm
        by_cases hl2 : live (k + 1) = true
        · rw [if_pos hl2] at hmem hm
          simp only [List.mem_cons] at hmem
          rcases hmem with h | hmem2
          · cases h
          · rcases hmem2 with h | hmem3
            · cases h
            · rcases hmem3 with h | h
              · cases h
              · exact ih (k + 2) h m hm
        · rw [if_neg hl2] at hmem hm
          have hf : live (k + 1) = false := by
            cases hv : live (k + 1) with
            | false => rfl
            | true => exact absurd hv hl2
          exact live_false_propagate hmono hf m (by simp at hm; omega)
    · rw [if_neg hl] at hmem hm
      have hf : live k = false := by
        cases hv : live k with
        | false => rfl
        | true => exact absurd hv hl
      exact live_false_propagate hmono hf m (by simp at hm; omega)

theorem directLoop_quietAfter (live : Nat → Bool) :
    ∀ (prov : List (List Nat)) (k : Nat), quietAfter (directLoop live k prov).evs := by
  intro prov
  induction prov with
  | nil => intro k; exact quietAfter_nil
  | cons c rest ih =>
    intro k
    rw [directLoop_cons]
    by_cases hl : live k = true
    · rw [if_pos hl]
      by_cases hc : c = []
      · rw [if_pos hc]
        exact quietAfter_cons (ih (k + 1)) (by intro h; cases h)
      · rw [if_neg hc]
        exact quietAfter_cons
          (quietAfter_cons (ih (k + 1)) (by intro h; cases h)) (by intro h; cases h)
    · rw [if_neg hl]
      exact quietAfter_cons quietAfter_nil (fun _ => allQuiet_nil)

theorem firstLoop_quietAfter (live : Nat → Bool) :
    ∀ (prov : List (List Nat)) (k : Nat), quietAfter (firstLoop live k prov).evs := by
  intro prov
  induction prov with
  | nil => intro k; exact quietAfter_nil
  | cons c rest ih =>
    intro k
    rw [firstLoop_cons]
    by_cases hl : live k = true
    · rw [if_pos hl]
      by_cases hc : c = []
      · rw [if_pos hc]
        exact quietAfter_cons (ih (k + 1)) (by intro h; cases h)
      · rw [if_neg hc]
        by_cases hl2 : live (k + 1) = true
        · rw [if_pos hl2]
          exact quietAfter_cons (quietAfter_cons (quietAfter_cons (ih (k + 2))
            (by intro h; cases h)) (by intro h; cases h)) (by intro h; cases h)
        · rw [if_neg hl2]
          exact quietAfter_cons
            (quietAfter_cons quietAfter_nil (fun _ => allQuiet_nil)) (by intro h; cases h)
    · rw [if_neg hl]
      exact quietAfter_cons quietAfter_nil (fun _ => allQuiet_nil)

/-! ## parLoop lemmas -/

theorem parLoop_nil (live : Nat → Bool) (oracle : Nat → List (List Nat)) (k : Nat) :
    parLoop live oracle k [] = [] := rfl

theorem parLoop_cons (live : Nat → Bool) (oracle : Nat → List (List Nat)) (k i : Nat)
    (rest : List Nat) :
    parLoop live oracle k (i :: rest) =
      (if live k then
        Ev.done i :: Ev.chk true ::
          (if joinChunks (oracle i) = [] then parLoop live oracle (k + 1) rest
           else Ev.yld i (joinChunks (oracle i)) :: parLoop live oracle (k + 1) rest)
      else Ev.done i :: Ev.chk false :: rest.map Ev.cancel) := rfl

theorem callsOf_map_cancel (l : List Nat) : callsOf (l.map Ev.cancel) = [] := by
  induction l with
  | nil => rfl
  | cons i rest ih => simp [ih]

theorem yieldsOf_map_cancel (l : List Nat) : yieldsOf (l.map Ev.cancel) = [] := by
  induction l with
  | nil => rfl
  | cons i rest ih => simp [ih]

theorem allQuiet_map_cancel (l : List Nat) : allQuiet (l.map Ev.cancel) := by
  intro e he
  rw [List.mem_map] at he
  obtain ⟨i, _, rfl⟩ := he
  rfl

theorem parLoop_calls (live : Nat → Bool) (oracle : Nat → List (List Nat)) :
    ∀ (order : List Nat) (k : Nat), callsOf (parLoop live oracle k order) = [] := by
  intro order
  induction order with
  | nil => intro k; rfl
  | cons i rest ih =>
    intro k
    rw [parLoop_cons]
    by_cases hl : live k = true
    · rw [if_pos hl]
      by_cases hj : joinChunks (oracle i) = [] <;> simp [hj, ih (k + 1)]
    · rw [if_neg hl]
      simp [callsOf_map_cancel]

theorem parLoop_yields_mem (live : Nat → Bool) (oracle : Nat → List (List Nat)) :
    ∀ (order : List Nat) (k : Nat),
      ∀ p ∈ yieldsOf (parLoop live oracle k order), p.1 ∈ order := by
  intro order
  induction order with
  | nil => intro k p hp; cases hp
  | cons i rest ih =>
    intro k p hp
    rw [parLoop_cons] at hp
    by_cases hl : live k = true
    · rw [if_pos hl] at hp
      simp only [yieldsOf_cons_done, yieldsOf_cons_chk] at hp
      by_cases hj : joinChunks (oracle i) = []
      · rw [if_pos hj] at hp
        exact List.mem_cons_of_mem i (ih (k + 1) p hp)
      · rw [if_neg hj] at hp
        simp only [yieldsOf_cons_yld] at hp
        rcases List.mem_cons.mp hp with h | h
        · rw [h]; exact List.mem_cons_self i rest
        · exact List.mem_cons_of_mem i (ih (k + 1) p h)
    · rw [if_neg hl] at hp
      simp only [yieldsOf_cons_done, yieldsOf_cons_chk, yieldsOf_map_cancel] at hp
      cases hp

theorem parLoop_done_or_cancel (live : Nat → Bool) (oracle : Nat → List (List Nat)) :
    ∀ (order : List Nat) (k : Nat), ∀ i ∈ order,
      Ev.done i ∈ parLoop live oracle k order ∨
      Ev.cancel i ∈ parLoop live oracle k order := by
  intro order
  induction order with
  | nil => intro k i hi; cases hi
  | cons j rest ih =>
    intro k i hi
    rw [parLoop_cons]
    by_cases hl : live k = true
    · rw [if_pos hl]
      rcases List.mem_cons.mp hi with h | h
      · subst h
        exact Or.inl (List.mem_cons_self _ _)
      · rcases ih (k + 1) i h with hd | hc
        · refine Or.inl (List.mem_cons_of_mem _ (List.mem_cons_of_mem _ ?_))
          by_cases hj : joinChunks (oracle j) = []
          · rw [if_pos hj]; exact hd
          · rw [if_neg hj]; exact List.mem_cons_of_mem _ hd
        · refine Or.inr (List.mem_cons_of_mem _ (List.mem_cons_of_mem _ ?_))
          by_cases hj : joinChunks (oracle j) = []
          · rw [if_pos hj]; exact hc
          · rw [if_neg hj]; exact List.mem_cons_of_mem _ hc
    · rw [if_neg hl]
      rcases List.mem_cons.mp hi with h | h
      · subst h
        exact Or.inl (List.mem_cons_self _ _)
      · exact Or.inr (List.mem_cons_of_mem _ (List.mem_cons_of_mem _
          (List.mem_map_of_mem Ev.cancel h)))

theorem parLoop_quietAfter (live : Nat → Bool) (oracle : Nat → List (List Nat)) :
    ∀ (order : List Nat) (k : Nat), quietAfter (parLoop live oracle k order) := by
  intro order
  induction order with
  | nil => intro k; exact quietAfter_nil
  | cons i rest ih =>
    intro k
    rw [parLoop_cons]
    by_cases hl : live k = true
    · rw [if_pos hl]
      by_cases hj : joinChunks (oracle i) = []
      · rw [if_pos hj]
        exact quietAfter_cons (quietAfter_cons (ih (k + 1))
          (by intro h; cases h)) (by intro h; cases h)
      · rw [if_neg hj]
        exact quietAfter_cons (quietAfter_cons (quietAfter_cons (ih (k + 1))
          (by intro h; cases h)) (by intro h; cases h)) (by intro h; cases h)
    · rw [if_neg hl]
      refine quietAfter_cons (quietAfter_cons (quietAfter_of_no_false ?_)
        (fun _ => allQuiet_map_cancel rest)) (by intro h; cases h)
      intro hmem
      rw [List.mem_map] at hmem
      obtain ⟨x, _, hx⟩ := hmem
      cases hx

/-! ## fanoutPhase lemmas -/

theorem mem_callsOf {i : Nat} : ∀ {l : List Ev}, Ev.call i ∈ l → i ∈ callsOf l := by
  intro l hl
  unfold callsOf
  rw [List.mem_filterMap]
  exact ⟨Ev.call i, hl, rfl⟩

theorem callsOf_map_call (l : List Nat) : callsOf (l.map Ev.call) = l := by
  induction l with
  | nil => rfl
  | cons i rest ih => simp [ih]

theorem yieldsOf_map_call (l : List Nat) : yieldsOf (l.map Ev.call) = [] := by
  induction l with
  | nil => rfl
  | cons i rest ih => simp [ih]

theorem fanoutPhase_quietAfter (live : Nat → Bool) (oracle : Nat → List (List Nat))
    (k n : Nat) (order : List Nat) : quietAfter (fanoutPhase live oracle k n order) := by
  unfold fanoutPhase
  by_cases hn : n ≤ 1
  · rw [if_pos hn]; exact quietAfter_nil
  · rw [if_neg hn]
    by_cases hl : live k = true
    · rw [if_pos hl]
      refine quietAfter_cons (quietAfter_append (quietAfter_of_no_false ?_)
        (parLoop_quietAfter live oracle order (k + 1)) ?_) (by intro h; cases h)
      · intro hmem
        rw [List.mem_map] at hmem
        obtain ⟨x, _, hx⟩ := hmem
        cases hx
      · intro hmem
        rw [List.mem_map] at hmem
        obtain ⟨x, _, hx⟩ := hmem
        cases hx
    · rw [if_neg hl]
      exact quietAfter_cons quietAfter_nil (fun _ => allQuiet_nil)

theorem fanoutPhase_entry_quiet {live : Nat → Bool} (oracle : Nat → List (List Nat))
    {k : Nat} (n : Nat) (order : List Nat) (hl : live k = false) :
    allQuiet (fanoutPhase live oracle k n order) := by
  unfold fanoutPhase
  by_cases hn : n ≤ 1
  · rw [if_pos hn]; exact allQuiet_nil
  · rw [if_neg hn, if_neg (by simp [hl])]
    exact allQuiet_cons rfl allQuiet_nil

theorem fanoutPhase_task_resolved (live : Nat → Bool) (oracle : Nat → List (List Nat))
    (k n : Nat) (order : List Nat)
    (hcov : ∀ i ∈ List.range' 1 (n - 1), i ∈ order) :
    ∀ i, Ev.call i ∈ fanoutPhase live oracle k n order →
      Ev.done i ∈ fanoutPhase live oracle k n order ∨
      Ev.cancel i ∈ fanoutPhase live oracle k n order := by
  intro i hmem
  unfold fanoutPhase at hmem ⊢
  by_cases hn : n ≤ 1
  · rw [if_pos hn] at hmem
    cases hmem
  · rw [if_neg hn] at hmem ⊢
    by_cases hl : live k = true
    · rw [if_pos hl] at hmem ⊢
      rcases List.mem_cons.mp hmem with h | h
      · cases h
      · rcases List.mem_append.mp h with h2 | h2
        · rw [List.mem_map] at h2
          obtain ⟨j, hj, hji⟩ := h2
          have : j = i := by cases hji; rfl
          subst this
          rcases parLoop_done_or_cancel live oracle order (k + 1) j (hcov j hj)
            with hd | hc
          · exact Or.inl (List.mem_cons_of_mem _ (List.mem_append_right _ hd))
          · exact Or.inr (List.mem_cons_of_mem _ (List.mem_append_right _ hc))
        · have := mem_callsOf h2
          rw [parLoop_calls] at this
          cases this
    · rw [if_neg hl] at hmem
      rcases List.mem_cons.mp hmem with h | h
      · cases h
      · cases h

theorem fanoutPhase_yields_mem (live : Nat → Bool) (oracle : Nat → List (List Nat))
    (k n : Nat) (order : List Nat) :
    ∀ p ∈ yieldsOf (fanoutPhase live oracle k n order), p.1 ∈ order := by
  intro p hp
  unfold fanoutPhase at hp
  by_cases hn : n ≤ 1
  · rw [if_pos hn] at hp
    cases hp
  · rw [if_neg hn] at hp
    by_cases hl : live k = true
    · rw [if_pos hl] at hp
      simp only [yieldsOf_cons_chk, yieldsOf_append, yieldsOf_map_call,
        List.nil_append] at hp
      exact parLoop_yields_mem live oracle order (k + 1) p hp
    · rw [if_neg hl] at hp
      cases hp

theorem fanoutPhase_calls_live (live : Nat → Bool) (oracle : Nat → List (List Nat))
    (k n : Nat) (order : List Nat) (hn : ¬ n ≤ 1) (hl : live k = true) :
    callsOf (fanoutPhase live oracle k n order) = List.range' 1 (n - 1) := by
  unfold fanoutPhase
  rw [if_neg hn, if_pos hl]
  simp [callsOf_map_call, parLoop_calls]

/-! ## streamImmediate lemmas -/

theorem bool_eq_false {b : Bool} (h : ¬ b = true) : b = false := by
  cases b
  · rfl
  · exact absurd rfl h

theorem allQuiet_chk_done (b : Bool) (s : Nat) : allQuiet [Ev.chk b, Ev.done s] :=
  allQuiet_cons rfl (allQuiet_cons rfl allQuiet_nil)

theorem quietAfter_chk_done (b : Bool) (s : Nat) : quietAfter [Ev.chk b, Ev.done s] :=
  quietAfter_cons (quietAfter_cons quietAfter_nil (fun _ => allQuiet_nil))
    (fun _ => allQuiet_cons rfl allQuiet_nil)

theorem allQuiet_done (s : Nat) : allQuiet [Ev.done s] :=
  allQuiet_cons rfl allQuiet_nil

theorem quietAfter_done (s : Nat) : quietAfter [Ev.done s] :=
  quietAfter_cons quietAfter_nil (fun _ => allQuiet_nil)

theorem streamImmediate_quietAfter {live : Nat → Bool} (hmono : LiveMono live)
    (oracle : Nat → List (List Nat)) (order : List Nat) (k : Nat) (text : List Char) :
    quietAfter (streamImmediate live oracle order k text) := by
  rw [streamImmediate_eq]
  by_cases hl : live k = true
  · rw [if_pos hl]
    by_cases hch : split_text_for_immediate_streaming text 800 = []
    · rw [if_pos hch]
      exact quietAfter_cons quietAfter_nil (by intro h; cases h)
    · rw [if_neg hch]
      by_cases hl2 : live (k + 1) = true
      · rw [if_pos hl2]
        cases hex : (firstLoop live (k + 2) (oracle 0)).exitKind with
        | aborted =>
          refine quietAfter_cons (quietAfter_cons (quietAfter_cons
            (quietAfter_append (firstLoop_quietAfter live (oracle 0) (k + 2))
              (quietAfter_done 0) (fun _ => allQuiet_done 0))
            (by intro h; cases h)) (by intro h; cases h)) (by intro h; cases h)
        | providerStopped =>
          have hfan : Ev.chk false ∈ (firstLoop live (k + 2) (oracle 0)).evs ++ [Ev.done 0] →
              allQuiet (fanoutPhase live oracle (firstLoop live (k + 2) (oracle 0)).next
                (split_text_for_immediate_streaming text 800).length order) := by
            intro hmem
            rcases List.mem_append.mp hmem with h | h
            · exact fanoutPhase_entry_quiet oracle _ order
                (firstLoop_false hmono (oracle 0) (k + 2) h _ (le_refl _))
            · rcases List.mem_cons.mp h with h2 | h2
              · cases h2
              · cases h2
          refine quietAfter_cons (quietAfter_cons (quietAfter_cons
            (quietAfter_append (quietAfter_append
              (firstLoop_quietAfter live (oracle 0) (k + 2)) (quietAfter_done 0)
              (fun _ => allQuiet_done 0))
              (fanoutPhase_quietAfter live oracle _ _ order) hfan)
            (by intro h; cases h)) (by intro h; cases h)) (by intro h; cases h)
        | finished =>
          have hfan : Ev.chk false ∈ (firstLoop live (k + 2) (oracle 0)).evs ++
              [Ev.chk (live (firstLoop live (k + 2) (oracle 0)).next), Ev.done 0] →
              allQuiet (fanoutPhase live oracle
                ((firstLoop live (k + 2) (oracle 0)).next + 1)
                (split_text_for_immediate_streaming text 800).length order) := by
            intro hmem
            rcases List.mem_append.mp hmem with h | h
            · exact fanoutPhase_entry_quiet oracle _ order
                (firstLoop_false hmono (oracle 0) (k + 2) h _ (by omega))
            · rcases List.mem_cons.mp h with h2 | h2
              · have hfalse : live (firstLoop live (k + 2) (oracle 0)).next = false := by
                  injection h2 with hh
                  exact hh.symm
                exact fanoutPhase_entry_quiet oracle _ order
                  (live_false_propagate hmono hfalse _ (by omega))
              · rcases List.mem_cons.mp h2 with h3 | h3
                · cases h3
                · cases h3
          refine quietAfter_cons (quietAfter_cons (quietAfter_cons
            (quietAfter_append (quietAfter_append
              (firstLoop_quietAfter live (oracle 0) (k + 2)) (quietAfter_chk_done _ 0)
              (fun _ => allQuiet_chk_done _ 0))
              (fanoutPhase_quietAfter live oracle _ _ order) hfan)
            (by intro h; cases h)) (by intro h; cases h)) (by intro h; cases h)
      · rw [if_neg hl2]
        have hq : allQuiet (fanoutPhase live oracle (k + 2)
            (split_text_for_immediate_streaming text 800).length order) :=
          fanoutPhase_entry_quiet oracle _ order
            (live_false_propagate hmono (bool_eq_false hl2) _ (by omega))
        exact quietAfter_cons (quietAfter_cons
          (fanoutPhase_quietAfter live oracle _ _ order) (fun _ => hq))
          (by intro h; cases h)
  · rw [if_neg hl]
    exact quietAfter_cons quietAfter_nil (fun _ => allQuiet_nil)

theorem streamImmediate_task_resolved (live : Nat → Bool)
    (oracle : Nat → List (List Nat)) (order : List Nat) (k : Nat) (text : List Char)
    (hcov : ∀ i ∈ List.range' 1
      ((split_text_for_immediate_streaming text 800).length - 1), i ∈ order) :
    ∀ i, 1 ≤ i → Ev.call i ∈ streamImmediate live oracle order k text →
      Ev.done i ∈ streamImmediate live oracle order k text ∨
      Ev.cancel i ∈ streamImmediate live oracle order k text := by
  intro i hi hmem
  rw [streamImmediate_eq] at hmem ⊢
  by_cases hl : live k = true
  · rw [if_pos hl] at hmem ⊢
    by_cases hch : split_text_for_immediate_streaming text 800 = []
    · rw [if_pos hch] at hmem
      rcases List.mem_cons.mp hmem with h | h
      · cases h
      · cases h
    · rw [if_neg hch] at hmem ⊢
      by_cases hl2 : live (k + 1) = true
      · rw [if_pos hl2] at hmem ⊢
        cases hex : (firstLoop live (k + 2) (oracle 0)).exitKind with
        | aborted =>
          rw [hex] at hmem
          rcases List.mem_cons.mp hmem with h | hmem2
          · cases h
          rcases List.mem_cons.mp hmem2 with h | hmem3
          · cases h
          rcases List.mem_cons.mp hmem3 with h | hmem4
          · injection h with h2
            omega
          rcases List.mem_append.mp hmem4 with h4 | h5
          · have := mem_callsOf h4
            rw [firstLoop_calls] at this
            cases this
          · rcases List.mem_cons.mp h5 with h6 | h6
            · cases h6
            · cases h6
        | providerStopped =>
          rw [hex] at hmem
          rcases List.mem_cons.mp hmem with h | hmem2
          · cases h
          rcases List.mem_cons.mp hmem2 with h | hmem3
          · cases h
          rcases List.mem_cons.mp hmem3 with h | hmem4
          · injection h with h2
            omega
          rcases List.mem_append.mp hmem4 with h4 | hfan
          · rcases List.mem_append.mp h4 with h5 | h6
            · have := mem_callsOf h5
              rw [firstLoop_calls] at this
              cases this
            · rcases List.mem_cons.mp h6 with h7 | h7
              · cases h7
              · cases h7
          · rcases fanoutPhase_task_resolved live oracle
                (firstLoop live (k + 2) (oracle 0)).next
                (split_text_for_immediate_streaming text 800).length order hcov i hfan
              with hd | hc
            · exact Or.inl (List.mem_cons_of_mem _ (List.mem_cons_of_mem _
                (List.mem_cons_of_mem _ (List.mem_append_right _ hd))))
            · exact Or.inr (List.mem_cons_of_mem _ (List.mem_cons_of_mem _
                (List.mem_cons_of_mem _ (List.mem_append_right _ hc))))
        | finished =>
          rw [hex] at hmem
          rcases List.mem_cons.mp hmem with h | hmem2
          · cases h
          rcases List.mem_cons.mp hmem2 with h | hmem3
          · cases h
          rcases List.mem_cons.mp hmem3 with h | hmem4
          · injection h with h2
            omega
          rcases List.mem_append.mp hmem4 with h4 | hfan
          · rcases List.mem_append.mp h4 with h5 | h6
            · have := mem_callsOf h5
              rw [firstLoop_calls] at this
              cases this
            · rcases List.mem_cons.mp h6 with h7 | h7
              · cases h7
              · rcases List.mem_cons.mp h7 with h8 | h8
                · cases h8
                · cases h8
          · rcases fanoutPhase_task_resolved live oracle
                ((firstLoop live (k + 2) (oracle 0)).next + 1)
                (split_text_for_immediate_streaming text 800).length order hcov i hfan
              with hd | hc
            · exact Or.inl (List.mem_cons_of_mem _ (List.mem_cons_of_mem _
                (List.mem_cons_of_mem _ (List.mem_append_right _ hd))))
            · exact Or.inr (List.mem_cons_of_mem _ (List.mem_cons_of_mem _
                (List.mem_cons_of_mem _ (List.mem_append_right _ hc))))
      · rw [if_neg hl2] at hmem ⊢
        rcases List.mem_cons.mp hmem with h | hmem2
        · cases h
        rcases List.mem_cons.mp hmem2 with h | hmem3
        · cases h
        rcases fanoutPhase_task_resolved live oracle (k + 2)
            (split_text_for_immediate_streaming text 800).length order hcov i hmem3
          with hd | hc
        · exact Or.inl (List.mem_cons_of_mem _ (List.mem_cons_of_mem _ hd))
        · exact Or.inr (List.mem_cons_of_mem _ (List.mem_cons_of_mem _ hc))
  · rw [if_neg hl] at hmem
    rcases List.mem_cons.mp hmem with h | h
    · cases h
    · cases h

/-! ## Remaining fanout observations -/

theorem fanoutPhase_calls_ge1 (live : Nat → Bool) (oracle : Nat → List (List Nat))
    (k n : Nat) (order : List Nat) :
    ∀ i ∈ callsOf (fanoutPhase live oracle k n order), 1 ≤ i := by
  intro i hi
  unfold fanoutPhase at hi
  by_cases hn : n ≤ 1
  · rw [if_pos hn] at hi
    cases hi
  · rw [if_neg hn] at hi
    by_cases hl : live k = true
    · rw [if_pos hl] at hi
      simp only [callsOf_cons_chk, callsOf_append, callsOf_map_call, parLoop_calls,
        List.append_nil] at hi
      rw [List.mem_range'_1] at hi
      omega
    · rw [if_neg hl] at hi
      simp only [callsOf_cons_chk, callsOf_nil] at hi
      cases hi

theorem streamDirect_quietAfter (live : Nat → Bool) (k : Nat) (prov : List (List Nat)) :
    quietAfter (streamDirect live k prov).1 := by
  rw [streamDirect_eq]
  by_cases hl : live k = true
  · rw [if_pos hl]
    by_cases hcomp : (directLoop live (k + 1) prov).completed = true
    · rw [if_pos hcomp]
      exact quietAfter_cons (quietAfter_cons (quietAfter_append
        (directLoop_quietAfter live prov (k + 1)) (quietAfter_chk_done _ 0)
        (fun _ => allQuiet_chk_done _ 0)) (by intro h; cases h)) (by intro h; cases h)
    · rw [if_neg hcomp]
      exact quietAfter_cons (quietAfter_cons (quietAfter_append
        (directLoop_quietAfter live prov (k + 1)) (quietAfter_done 0)
        (fun _ => allQuiet_done 0)) (by intro h; cases h)) (by intro h; cases h)
  · rw [if_neg hl]
    exact quietAfter_cons quietAfter_nil (fun _ => allQuiet_nil)

theorem streamDirect_calls (live : Nat → Bool) (k : Nat) (prov : List (List Nat)) :
    ∀ i, Ev.call i ∈ (streamDirect live k prov).1 → i = 0 := by
  intro i hmem
  rw [streamDirect_eq] at hmem
  by_cases hl : live k = true
  · rw [if_pos hl] at hmem
    by_cases hcomp : (directLoop live (k + 1) prov).completed = true
    · rw [if_pos hcomp] at hmem
      rcases List.mem_cons.mp hmem with h | hmem2
      · cases h
      rcases List.mem_cons.mp hmem2 with h | hmem3
      · simp at h
        omega
      rcases List.mem_append.mp hmem3 with h | h
      · have := mem_callsOf h
        rw [directLoop_calls] at this
        cases this
      · rcases List.mem_cons.mp h with h2 | h2
        · cases h2
        · rcases List.mem_cons.mp h2 with h3 | h3
          · cases h3
          · cases h3
    · rw [if_neg hcomp] at hmem
      rcases List.mem_cons.mp hmem with h | hmem2
      · cases h
      rcases List.mem_cons.mp hmem2 with h | hmem3
      · simp at h
        omega
      rcases List.mem_append.mp hmem3 with h | h
      · have := mem_callsOf h
        rw [directLoop_calls] at this
        cases this
      · rcases List.mem_cons.mp h with h2 | h2
        · cases h2
        · cases h2
  · rw [if_neg hl] at hmem
    rcases List.mem_cons.mp hmem with h | h
    · cases h
    · cases h

/-! ## C1: the first segment streams first, completely and alone -/

/-- C1: for any text whose normalized form exceeds the 800-character
streaming threshold, the run splits into a first-segment phase `a`
followed by a fan-out phase `b`: every provider call in `a` is for
segment 0 and every chunk forwarded during `a` originates from segment
0, while every provider call and every forwarded chunk in `b` belongs to
a later segment - so the first segment is synthesized and streamed
strictly before any other segment's synthesis starts, whatever the
completion order of the later segments.  When the client stays
connected, phase `a` forwards exactly the nonempty provider chunks of
segment 0 (the first segment is streamed completely, and its provider
call finishes inside `a`), and when segment 0 produces any nonempty
chunk the first chunk forwarded by the whole run is tagged with segment
0. -/
theorem c1_first_segment_streams_first (text : List Char) (live : Nat → Bool)
    (oracle : Nat → List (List Nat)) (order : List Nat)
    (horder : ∀ i ∈ order, 1 ≤ i)
    (hlen : 800 < (clean_text_for_ultra_fast_streaming text).length) :
    ∃ a b, stream_audio_generation live oracle order text = a ++ b ∧
      (∀ i ∈ callsOf a, i = 0) ∧
      (∀ p ∈ yieldsOf a, p.1 = 0) ∧
      (∀ i ∈ callsOf b, 1 ≤ i) ∧
      (∀ p ∈ yieldsOf b, 1 ≤ p.1) ∧
      ((∀ m, live m = true) →
        split_text_for_immediate_streaming (clean_text_for_ultra_fast_streaming text) 800
          ≠ [] →
        yieldsOf a = ((oracle 0).filter (fun c => c ≠ [])).map (fun c => (0, c)) ∧
        Ev.done 0 ∈ a ∧
        ((oracle 0).filter (fun c => c ≠ []) ≠ [] →
          ∃ c, (yieldsOf (stream_audio_generation live oracle order text)).head?
            = some (0, c))) := by
  have hb_calls : ∀ (kk n : Nat),
      ∀ i ∈ callsOf (fanoutPhase live oracle kk n order), 1 ≤ i :=
    fun kk n => fanoutPhase_calls_ge1 live oracle kk n order
  have hb_yields : ∀ (kk n : Nat),
      ∀ p ∈ yieldsOf (fanoutPhase live oracle kk n order), 1 ≤ p.1 :=
    fun kk n p hp => horder p.1 (fanoutPhase_yields_mem live oracle kk n order p hp)
  have htr : stream_audio_generation live oracle order text =
      (if live 0 then Ev.chk true :: streamImmediate live oracle order 1
        (clean_text_for_ultra_fast_streaming text) else [Ev.chk false]) := by
    rw [stream_audio_generation_eq]
    by_cases hl0 : live 0 = true
    · rw [if_pos hl0, if_pos hl0, if_neg (by omega)]
    · rw [if_neg hl0, if_neg hl0]
  rw [htr]
  by_cases hl0 : live 0 = true
  · rw [if_pos hl0, streamImmediate_eq]
    by_cases hl1 : live 1 = true
    · rw [if_pos hl1]
      by_cases hch : split_text_for_immediate_streaming
          (clean_text_for_ultra_fast_streaming text) 800 = []
      · rw [if_pos hch]
        refine ⟨[Ev.chk true, Ev.chk true], [], by simp, ?_, ?_, ?_, ?_, ?_⟩
        · intro i hi; cases hi
        · intro p hp; cases hp
        · intro i hi; cases hi
        · intro p hp; cases hp
        · intro _ hne
          exact absurd hch hne
      · rw [if_neg hch]
        by_cases hl2 : live 2 = true
        · rw [if_pos hl2]
          cases hex : (firstLoop live 3 (oracle 0)).exitKind with
          | aborted =>
            refine ⟨Ev.chk true :: Ev.chk true :: Ev.chk true :: Ev.call 0 ::
              ((firstLoop live 3 (oracle 0)).evs ++ [Ev.done 0]), [],
              by simp [List.append_assoc], ?_, ?_, ?_, ?_, ?_⟩
            · intro i hi
              simp only [callsOf_cons_chk, callsOf_cons_call, callsOf_append,
                firstLoop_calls, callsOf_cons_done, callsOf_nil, List.nil_append,
                List.append_nil] at hi
              rcases List.mem_cons.mp hi with h | h
              · exact h
              · cases h
            · intro p hp
              simp only [yieldsOf_cons_chk, yieldsOf_cons_call, yieldsOf_append,
                yieldsOf_cons_done, yieldsOf_nil, List.append_nil] at hp
              exact firstLoop_yields_seg0 live (oracle 0) 3 p hp
            · intro i hi; cases hi
            · intro p hp; cases hp
            · intro hall _
              rw [(firstLoop_all_live hall (oracle 0) 3).1] at hex
              simp at hex
          | providerStopped =>
            refine ⟨Ev.chk true :: Ev.chk true :: Ev.chk true :: Ev.call 0 ::
              ((firstLoop live 3 (oracle 0)).evs ++ [Ev.done 0]),
              fanoutPhase live oracle (firstLoop live 3 (oracle 0)).next
                (split_text_for_immediate_streaming
                  (clean_text_for_ultra_fast_streaming text) 800).length order,
              by simp [List.append_assoc], ?_, ?_, ?_, ?_, ?_⟩
            · intro i hi
              simp only [callsOf_cons_chk, callsOf_cons_call, callsOf_append,
                firstLoop_calls, callsOf_cons_done, callsOf_nil, List.nil_append,
                List.append_nil] at hi
              rcases List.mem_cons.mp hi with h | h
              · exact h
              · cases h
            · intro p hp
              simp only [yieldsOf_cons_chk, yieldsOf_cons_call, yieldsOf_append,
                yieldsOf_cons_done, yieldsOf_nil, List.append_nil] at hp
              exact firstLoop_yields_seg0 live (oracle 0) 3 p hp
            · exact hb_calls _ _
            · exact hb_yields _ _
            · intro hall _
              rw [(firstLoop_all_live hall (oracle 0) 3).1] at hex
              simp at hex
          | finished =>
            refine ⟨Ev.chk true :: Ev.chk true :: Ev.chk true :: Ev.call 0 ::
              ((firstLoop live 3 (oracle 0)).evs ++
                [Ev.chk (live (firstLoop live 3 (oracle 0)).next), Ev.done 0]),
              fanoutPhase live oracle ((firstLoop live 3 (oracle 0)).next + 1)
                (split_text_for_immediate_streaming
                  (clean_text_for_ultra_fast_streaming text) 800).length order,
              by simp [List.append_assoc], ?_, ?_, ?_, ?_, ?_⟩
            · intro i hi
              simp only [callsOf_cons_chk, callsOf_cons_call, callsOf_append,
                firstLoop_calls, callsOf_cons_done, callsOf_nil, List.nil_append,
                List.append_nil] at hi
              rcases List.mem_cons.mp hi with h | h
              · exact h
              · cases h
            · intro p hp
              simp only [yieldsOf_cons_chk, yieldsOf_cons_call, yieldsOf_append,
                yieldsOf_cons_done, yieldsOf_nil, List.append_nil] at hp
              exact firstLoop_yields_seg0 live (oracle 0) 3 p hp
            · exact hb_calls _ _
            · exact hb_yields _ _
            · intro hall _
              have hy := (firstLoop_all_live hall (oracle 0) 3).2
              refine ⟨?_, by simp, ?_⟩
              · simp only [yieldsOf_cons_chk, yieldsOf_cons_call, yieldsOf_append,
                  yieldsOf_cons_done, yieldsOf_nil, List.append_nil]
                exact hy
              · intro hfne
                obtain ⟨c0, f0, hf⟩ : ∃ c0 f0,
                    (oracle 0).filter (fun c => c ≠ []) = c0 :: f0 := by
                  cases hx : (oracle 0).filter (fun c => c ≠ []) with
                  | nil => exact absurd hx hfne
                  | cons c0 f0 => exact ⟨c0, f0, rfl⟩
                refine ⟨c0, ?_⟩
                simp only [yieldsOf_cons_chk, yieldsOf_cons_call, yieldsOf_append,
                  yieldsOf_cons_done, yieldsOf_nil, List.append_nil, hy, hf,
                  List.map_cons, List.cons_append, List.head?_cons]
        · rw [if_neg hl2]
          refine ⟨[Ev.chk true, Ev.chk true, Ev.chk false],
            fanoutPhase live oracle 3
              (split_text_for_immediate_streaming
                (clean_text_for_ultra_fast_streaming text) 800).length order,
            by simp, ?_, ?_, ?_, ?_, ?_⟩
          · intro i hi; cases hi
          · intro p hp; cases hp
          · exact hb_calls _ _
          · exact hb_yields _ _
          · intro hall _
            exact absurd (hall 2) (by simp [hl2])
    · rw [if_neg hl1]
      refine ⟨[Ev.chk true, Ev.chk false], [], by simp, ?_, ?_, ?_, ?_, ?_⟩
      · intro i hi; cases hi
      · intro p hp; cases hp
      · intro i hi; cases hi
      · intro p hp; cases hp
      · intro hall _
        exact absurd (hall 1) (by simp [hl1])
  · rw [if_neg hl0]
    refine ⟨[Ev.chk false], [], by simp, ?_, ?_, ?_, ?_, ?_⟩
    · intro i hi; cases hi
    · intro p hp; cases hp
    · intro i hi; cases hi
    · intro p hp; cases hp
    · intro hall _
      exact absurd (hall 0) (by simp [hl0])

/-- C1 witness: a 900-character single-word text (above the threshold,
one segment, no fan-out tasks) with a live client and a provider
emitting two nonempty chunks for the first segment. -/
theorem c1_first_segment_streams_first_witness :
    (∀ i ∈ ([] : List Nat), 1 ≤ i) ∧
    800 < (clean_text_for_ultra_fast_streaming (List.replicate 900 'a')).length ∧
    ∃ a b, stream_audio_generation liveTrue (fun _ => [[1], [], [2]]) []
        (List.replicate 900 'a') = a ++ b ∧
      (∀ i ∈ callsOf a, i = 0) ∧
      (∀ p ∈ yieldsOf a, p.1 = 0) ∧
      (∀ i ∈ callsOf b, 1 ≤ i) ∧
      (∀ p ∈ yieldsOf b, 1 ≤ p.1) := by
  have hlen : 800 <
      (clean_text_for_ultra_fast_streaming (List.replicate 900 'a')).length := by
    have hc : cleanPasses (List.replicate 900 'a') = List.replicate 900 'a' :=
      cleanPasses_rep_a 900
    rw [clean_ultra_eq, hc, List.length_replicate, if_neg (by omega)]
    rw [pyStrip_no_ws (fun c hc2 => by
      have hc3 : c ∈ List.replicate 900 'a' := hc2
      rw [List.eq_of_mem_replicate hc3]
      rfl)]
    rw [List.length_replicate]
    omega
  obtain ⟨a, b, h1, h2, h3, h4, h5, _⟩ :=
    c1_first_segment_streams_first (List.replicate 900 'a') liveTrue
      (fun _ => [[1], [], [2]]) [] (fun i hi => absurd hi (List.not_mem_nil i)) hlen
  exact ⟨fun i hi => absurd hi (List.not_mem_nil i), hlen, a, b, h1, h2, h3, h4, h5⟩

/-! ## C2: disconnection stops the stream -/

/-- C2: with an absorbing liveness schedule (once the session is seen
disconnected it stays disconnected) and a completion order covering all
created fan-out tasks, (1) after any failed liveness check the trace
contains no further forwarded chunk and no further provider-call start,
and (2) every fan-out synthesis task whose provider call started but
never completed has a cancellation event in the trace. -/
theorem c2_disconnect_stops_streaming (text : List Char) (live : Nat → Bool)
    (oracle : Nat → List (List Nat)) (order : List Nat)
    (hmono : LiveMono live)
    (hcov : ∀ i ∈ List.range' 1
      ((split_text_for_immediate_streaming
        (clean_text_for_ultra_fast_streaming text) 800).length - 1), i ∈ order) :
    quietAfter (stream_audio_generation live oracle order text) ∧
    (∀ i, 1 ≤ i → Ev.call i ∈ stream_audio_generation live oracle order text →
      Ev.done i ∉ stream_audio_generation live oracle order text →
      Ev.cancel i ∈ stream_audio_generation live oracle order text) := by
  rw [stream_audio_generation_eq]
  by_cases hl : live 0 = true
  · rw [if_pos hl]
    by_cases hlen : (clean_text_for_ultra_fast_streaming text).length ≤ 800
    · rw [if_pos hlen]
      constructor
      · exact quietAfter_cons (streamDirect_quietAfter live 1 (oracle 0))
          (by intro h; cases h)
      · intro i hi hmem _
        rcases List.mem_cons.mp hmem with h | h
        · cases h
        · have := streamDirect_calls live 1 (oracle 0) i h
          omega
    · rw [if_neg hlen]
      constructor
      · exact quietAfter_cons
          (streamImmediate_quietAfter hmono oracle order 1
            (clean_text_for_ultra_fast_streaming text)) (by intro h; cases h)
      · intro i hi hmem hdone
        rcases List.mem_cons.mp hmem with h | h
        · cases h
        · rcases streamImmediate_task_resolved live oracle order 1
              (clean_text_for_ultra_fast_streaming text) hcov i hi h with hd | hc
          · exact absurd (List.mem_cons_of_mem _ hd) hdone
          · exact List.mem_cons_of_mem _ hc
  · rw [if_neg hl]
    constructor
    · exact quietAfter_cons quietAfter_nil (fun _ => allQuiet_nil)
    · intro i hi hmem _
      rcases List.mem_cons.mp hmem with h | h
      · cases h
      · cases h

/-- C2 witness: the six-segment text with a live-then-dead schedule that
disconnects during the parallel phase, completion order covering the
five tasks. -/
theorem c2_disconnect_stops_streaming_witness :
    LiveMono (fun k => decide (k < 12)) ∧
    quietAfter (stream_audio_generation (fun k => decide (k < 12)) capOracle
      [1, 2, 3, 4, 5] fanoutText) ∧
    (∀ i, 1 ≤ i →
      Ev.call i ∈ stream_audio_generation (fun k => decide (k < 12)) capOracle
        [1, 2, 3, 4, 5] fanoutText →
      Ev.done i ∉ stream_audio_generation (fun k => decide (k < 12)) capOracle
        [1, 2, 3, 4, 5] fanoutText →
      Ev.cancel i ∈ stream_audio_generation (fun k => decide (k < 12)) capOracle
        [1, 2, 3, 4, 5] fanoutText) := by
  have hmono : LiveMono (fun k => decide (k < 12)) := by
    intro k hk
    simp only [decide_eq_true_eq] at hk ⊢
    omega
  have hcov : ∀ i ∈ List.range' 1
      ((split_text_for_immediate_streaming
        (clean_text_for_ultra_fast_streaming fanoutText) 800).length - 1),
      i ∈ [1, 2, 3, 4, 5] := by
    rw [clean_fanoutText, split_imm_fanoutText]
    decide
  have h := c2_disconnect_stops_streaming fanoutText (fun k => decide (k < 12))
    capOracle [1, 2, 3, 4, 5] hmono hcov
  exact ⟨hmono, h.1, h.2⟩

/-! ## C3 (amended): batch cap in the non-streaming path, uncapped
fan-out in the streaming path -/

theorem filter_ge_one_cons_zero (m : Nat) :
    ((0 :: List.range' 1 m).filter (fun i => decide (1 ≤ i))).length = m := by
  show ((List.range' 1 m).filter (fun i => decide (1 ≤ i))).length = m
  have h1 : (List.range' 1 m).filter (fun i => decide (1 ≤ i)) = List.range' 1 m :=
    List.filter_eq_self.mpr (fun a ha => by
      have h2 := List.mem_range'_1.mp ha
      simp only [decide_eq_true_eq]
      omega)
  rw [h1]
  simp

/-- C3 (amended): in `_generate_audio_parallel_chunks` every batch holds
at most 4 segments, so at most 4 synthesis calls are in flight at any
point of the non-streaming path; but in the streaming path
(`_stream_audio_immediate`), for a connected client the run starts one
provider call for every one of the `n - 1` remaining segments, all
concurrently pending, with no cap. -/
theorem c3_amended_parallel_cap_and_uncapped_fanout (text : List Char)
    (chunkSize : Nat) (live : Nat → Bool) (oracle : Nat → List (List Nat))
    (order : List Nat) (hall : ∀ m, live m = true)
    (hlen : 800 < (clean_text_for_ultra_fast_streaming text).length) :
    (∀ b ∈ generate_audio_parallel_batches text chunkSize, b.length ≤ 4) ∧
    ((callsOf (stream_audio_generation live oracle order text)).filter
        (fun i => decide (1 ≤ i))).length =
      (split_text_for_immediate_streaming
        (clean_text_for_ultra_fast_streaming text) 800).length - 1 := by
  refine ⟨parallelBatches_le_four _, ?_⟩
  rw [stream_audio_generation_eq, if_pos (hall 0), if_neg (by omega),
    streamImmediate_eq, if_pos (hall 1)]
  by_cases hch : split_text_for_immediate_streaming
      (clean_text_for_ultra_fast_streaming text) 800 = []
  · rw [if_pos hch, hch]
    rfl
  · rw [if_neg hch, if_pos (hall 2)]
    rw [(firstLoop_all_live hall (oracle 0) 3).1]
    simp only [callsOf_cons_chk, callsOf_cons_call, callsOf_append, firstLoop_calls,
      callsOf_cons_done, callsOf_nil, List.nil_append, List.append_nil]
    by_cases hn : (split_text_for_immediate_streaming
        (clean_text_for_ultra_fast_streaming text) 800).length ≤ 1
    · rw [show fanoutPhase live oracle ((firstLoop live 3 (oracle 0)).next + 1)
          (split_text_for_immediate_streaming
            (clean_text_for_ultra_fast_streaming text) 800).length order = []
        from by unfold fanoutPhase; rw [if_pos hn]]
      have hn1 : (split_text_for_immediate_streaming
          (clean_text_for_ultra_fast_streaming text) 800).length = 1 := by
        have : (split_text_for_immediate_streaming
            (clean_text_for_ultra_fast_streaming text) 800).length ≠ 0 := by
          intro h0
          exact hch (List.eq_nil_of_length_eq_zero h0)
        omega
      rw [hn1]
      rfl
    · rw [fanoutPhase_calls_live live oracle _ _ order hn
        (hall ((firstLoop live 3 (oracle 0)).next + 1))]
      exact filter_ge_one_cons_zero _

/-- C3 (amended) witness: six 400-character segments; every batch of the
non-streaming path has at most 4 segments, while the streaming fan-out
starts 5 concurrent provider calls. -/
theorem c3_amended_parallel_cap_and_uncapped_fanout_witness :
    (∀ m, liveTrue m = true) ∧
    800 < (clean_text_for_ultra_fast_streaming fanoutText).length ∧
    ((∀ b ∈ generate_audio_parallel_batches fanoutText 400, b.length ≤ 4) ∧
    ((callsOf (stream_audio_generation liveTrue capOracle [1, 2, 3, 4, 5]
        fanoutText)).filter (fun i => decide (1 ≤ i))).length =
      (split_text_for_immediate_streaming
        (clean_text_for_ultra_fast_streaming fanoutText) 800).length - 1) := by
  have hlen : 800 < (clean_text_for_ultra_fast_streaming fanoutText).length := by
    rw [clean_fanoutText, fanoutText_length]
    omega
  exact ⟨fun _ => rfl, hlen,
    c3_amended_parallel_cap_and_uncapped_fanout fanoutText 400 liveTrue capOracle
      [1, 2, 3, 4, 5] (fun _ => rfl) hlen⟩
